import Mathlib

/-!
Verification of the bounded-concurrency link-validation engine of this
repository (src/02.ENH/gnb/gnb.py and src/02.ENH/shop/shop.py, with the URL
utilities of src/02.ENH/gnb/utility/utils.py).

Python strings are modelled as lists of characters (`PyStr`).  The URL
functions `standardize_url` and `refine_url` call CPython's
`urllib.parse.urlparse` / `urlunparse`; those are embedded below following
the CPython 3.11 implementation of `urllib/parse.py` (`urlsplit`,
`_splitparams`, `_splitnetloc`, `urlunsplit`).  Two corners of `urlsplit`
are outside the modelled domain and are reported as distinct error values
rather than being given a behaviour: netlocs containing a bracketed host
(CPython validates them with the `ipaddress` module) and non-ASCII netlocs
(CPython validates them via NFKC normalisation).  No claim below exercises
either corner.  A parse error is modelled with `Except`, mirroring the
`ValueError` CPython raises.
-/

namespace SOP

/-- Python `str` modelled as a list of unicode characters. -/
abbrev PyStr := List Char

/-- Characters stripped from the left of a URL by CPython `urlsplit`
(`_WHATWG_C0_CONTROL_OR_SPACE`): C0 controls and the space character. -/
def isC0OrSpace (c : Char) : Bool := c.toNat ≤ 32

/-- CPython `urlsplit` first lstrips C0 controls and spaces. -/
def lstripC0OrSpace (l : PyStr) : PyStr := l.dropWhile isC0OrSpace

/-- CPython `urlsplit` removes every tab, CR and LF
(`_UNSAFE_URL_BYTES_TO_REMOVE`). -/
def removeUnsafeBytes (l : PyStr) : PyStr :=
  l.filter (fun c => !(c == '\t' || c == '\r' || c == '\n'))

/-- Characters allowed in a URL scheme (`scheme_chars` in urllib.parse):
ASCII letters, digits, and plus, minus, dot. -/
def isSchemeChar (c : Char) : Bool :=
  c.isAlpha || c.isDigit || c == '+' || c == '-' || c == '.'

/-- Split a list at the first occurrence of `c`; the separator is dropped.
Returns `none` when `c` does not occur (CPython `str.find` returning -1). -/
def splitOnFirst (c : Char) : PyStr → Option (PyStr × PyStr)
  | [] => none
  | x :: xs =>
    if x = c then some ([], xs)
    else
      match splitOnFirst c xs with
      | none => none
      | some (a, b) => some (x :: a, b)

/-- Split at the first occurrence of `c`, keeping everything when `c` is
absent (the `url.split(sep, 1)` idiom guarded by `sep in url`). -/
def splitAtFirst (c : Char) (l : PyStr) : PyStr × PyStr :=
  match splitOnFirst c l with
  | none => (l, [])
  | some p => p

/-- Scheme detection of CPython `urlsplit`: take everything before the first
colon when it is nonempty, starts with an ASCII letter, and consists of
scheme characters only; the scheme is lowercased.  Otherwise the scheme is
empty and the URL is left whole. -/
def splitScheme (url : PyStr) : PyStr × PyStr :=
  match splitOnFirst ':' url with
  | none => ([], url)
  | some (pre, post) =>
    match pre with
    | [] => ([], url)
    | c :: _ =>
      if c.isAlpha && pre.all isSchemeChar then (pre.map Char.toLower, post)
      else ([], url)

/-- Delimiters ending the netloc in `_splitnetloc`. -/
def isNetlocDelim (c : Char) : Bool := c == '/' || c == '?' || c == '#'

/-- CPython `_splitnetloc`: the netloc runs to the first of `/`, `?`, `#`. -/
def splitNetloc (l : PyStr) : PyStr × PyStr :=
  (l.takeWhile (fun c => !(isNetlocDelim c)), l.dropWhile (fun c => !(isNetlocDelim c)))

/-- Errors of the embedded `urlsplit`.  `invalidIPv6` is CPython's
"Invalid IPv6 URL" `ValueError`.  `bracketedHost` and `nonAsciiNetloc` mark
inputs outside the modelled domain (see the module header). -/
inductive UrlErr where
  | invalidIPv6
  | bracketedHost
  | nonAsciiNetloc
deriving DecidableEq, Repr

/-- Message text of a parse error, as interpolated by `f"Exception: {e}"`. -/
def urlErrMsg : UrlErr → PyStr
  | .invalidIPv6 => "Invalid IPv6 URL".data
  | .bracketedHost => "bracketed host".data
  | .nonAsciiNetloc => "non-ascii netloc".data

/-- Result of the embedded `urlsplit`. -/
structure SplitResult where
  scheme : PyStr
  netloc : PyStr
  path : PyStr
  query : PyStr
  fragment : PyStr
deriving DecidableEq, Repr

/-- Embedded CPython 3.11 `urlsplit` (fragments allowed, default scheme):
lstrip C0/space, drop tab/CR/LF, detect the scheme, split the netloc after
a leading `//`, check brackets, split the fragment at the first `#` and the
query at the first `?`, and check the netloc. -/
def urlsplitE (url0 : PyStr) : Except UrlErr SplitResult :=
  let url1 := removeUnsafeBytes (lstripC0OrSpace url0)
  let sp := splitScheme url1
  let scheme := sp.1
  let url2 := sp.2
  let np : PyStr × PyStr :=
    if url2.take 2 = ['/', '/'] then splitNetloc (url2.drop 2) else ([], url2)
  let netloc := np.1
  let url3 := np.2
  if ('[' ∈ netloc ∧ ']' ∉ netloc) ∨ (']' ∈ netloc ∧ '[' ∉ netloc) then
    .error .invalidIPv6
  else if '[' ∈ netloc then
    .error .bracketedHost
  else if netloc ≠ [] ∧ ¬ netloc.all (fun c => c.toNat ≤ 127) then
    .error .nonAsciiNetloc
  else
    let fs := splitAtFirst '#' url3
    let qs := splitAtFirst '?' fs.1
    .ok ⟨scheme, netloc, qs.1, qs.2, fs.2⟩

/-- Result of the embedded `urlparse`. -/
structure ParseResult where
  scheme : PyStr
  netloc : PyStr
  path : PyStr
  params : PyStr
  query : PyStr
  fragment : PyStr
deriving DecidableEq, Repr

/-- The `uses_params` scheme list of urllib.parse. -/
def usesParams : List PyStr :=
  [[], "ftp".data, "hdl".data, "prospero".data, "http".data, "imap".data,
   "https".data, "shttp".data, "rtsp".data, "rtsps".data, "rtspu".data,
   "sip".data, "sips".data, "mms".data, "sftp".data, "tel".data]

/-- The `uses_netloc` scheme list of urllib.parse. -/
def usesNetloc : List PyStr :=
  [[], "ftp".data, "http".data, "gopher".data, "nntp".data, "telnet".data,
   "imap".data, "wais".data, "file".data, "mms".data, "https".data,
   "shttp".data, "snews".data, "prospero".data, "rtsp".data, "rtsps".data,
   "rtspu".data, "rsync".data, "svn".data, "svn+ssh".data, "sftp".data,
   "nfs".data, "git".data, "git+ssh".data, "ws".data, "wss".data]

/-- CPython `_splitparams`: when the path contains a `/`, split at the
first `;` occurring in the final segment (after the last `/`); otherwise at
the first `;` anywhere. -/
def splitparamsPy (url : PyStr) : PyStr × PyStr :=
  if '/' ∈ url then
    let lastSeg := (url.reverse.takeWhile (fun c => !(c == '/'))).reverse
    let stem := url.take (url.length - lastSeg.length)
    match splitOnFirst ';' lastSeg with
    | none => (url, [])
    | some (a, b) => (stem ++ a, b)
  else
    splitAtFirst ';' url

/-- Embedded CPython `urlparse`: `urlsplit`, then split path parameters when
the scheme uses them and the path contains a `;`. -/
def urlparseE (url : PyStr) : Except UrlErr ParseResult := do
  let s ← urlsplitE url
  let pp : PyStr × PyStr :=
    if s.scheme ∈ usesParams ∧ ';' ∈ s.path then splitparamsPy s.path
    else (s.path, [])
  return ⟨s.scheme, s.netloc, pp.1, pp.2, s.query, s.fragment⟩

/-- Embedded CPython `urlunsplit`. -/
def urlunsplit (scheme netloc url query fragment : PyStr) : PyStr :=
  let url :=
    if netloc ≠ [] ∨ (scheme ≠ [] ∧ scheme ∈ usesNetloc ∧ url.take 2 ≠ ['/', '/']) then
      let url := if url ≠ [] ∧ url.take 1 ≠ ['/'] then '/' :: url else url
      '/' :: '/' :: (netloc ++ url)
    else url
  let url := if scheme ≠ [] then scheme ++ ':' :: url else url
  let url := if query ≠ [] then url ++ '?' :: query else url
  if fragment ≠ [] then url ++ '#' :: fragment else url

/-- Embedded CPython `urlunparse`: re-attach path parameters, then
`urlunsplit`. -/
def urlunparse (p : ParseResult) : PyStr :=
  let url := if p.params ≠ [] then p.path ++ ';' :: p.params else p.path
  urlunsplit p.scheme p.netloc url p.query p.fragment

/-- Python `str.rstrip('/')`. -/
def rstripSlash (l : PyStr) : PyStr := (l.reverse.dropWhile (fun c => c == '/')).reverse

/-- Embedding of `standardize_url` (src/02.ENH/gnb/utility/utils.py): parse
the URL, strip trailing slashes from the path, and reassemble.  A
`ValueError` from `urlparse` propagates. -/
def standardize_url (url : PyStr) : Except UrlErr PyStr :=
  (urlparseE url).map fun parsed =>
    urlunparse { parsed with path := rstripSlash parsed.path }

/-- Python whitespace for `str.strip()` with no argument, following
`str.isspace`: ASCII whitespace, the C1 separators, NEL, NBSP and the
Unicode space separators. -/
def pyIsSpace (c : Char) : Bool :=
  (9 ≤ c.toNat && c.toNat ≤ 13) || (28 ≤ c.toNat && c.toNat ≤ 32) ||
  c.toNat == 133 || c.toNat == 160 || c.toNat == 0x1680 ||
  (0x2000 ≤ c.toNat && c.toNat ≤ 0x200a) ||
  c.toNat == 0x2028 || c.toNat == 0x2029 || c.toNat == 0x202f ||
  c.toNat == 0x205f || c.toNat == 0x3000

/-- Python `str.strip()` with no argument. -/
def pyStrip (l : PyStr) : PyStr :=
  ((l.dropWhile pyIsSpace).reverse.dropWhile pyIsSpace).reverse

/-- Embedding of `refine_url` (src/02.ENH/gnb/utility/utils.py): empty URLs
are returned unchanged; otherwise the URL is stripped, spaces are removed,
protocol-relative URLs get the base scheme, netloc-less URLs are prefixed
with the base domain, and URLs that already carry a netloc pass through. -/
def refine_url (url base_domain : PyStr) : Except UrlErr PyStr :=
  if url = [] then .ok url
  else
    let url := pyStrip url
    let url := url.filter (fun c => !(c == ' '))
    if url.take 2 = ['/', '/'] then do
      let parsedBase ← urlparseE base_domain
      let scheme := if parsedBase.scheme ≠ [] then parsedBase.scheme else "https".data
      return scheme ++ ':' :: url
    else do
      let parsed ← urlparseE url
      if parsed.netloc = [] then
        let url := if url.take 1 ≠ ['/'] then '/' :: url else url
        return rstripSlash base_domain ++ url
      else
        return url

/-- Tail of a Python integer-literal digit run: underscores are allowed only
singly and between digits. -/
def digitRunTail : PyStr → Bool
  | [] => true
  | '_' :: c :: rest => c.isDigit && digitRunTail rest
  | ['_'] => false
  | c :: rest => c.isDigit && digitRunTail rest

/-- A nonempty run of ASCII digits with optional single underscores between
digits, as accepted by Python `int()` after the sign. -/
def digitRun : PyStr → Bool
  | [] => false
  | c :: rest => c.isDigit && digitRunTail rest

/-- Numeric value of a digit run, skipping underscores. -/
def digitsVal (l : PyStr) : Nat :=
  l.foldl (fun acc c => if c == '_' then acc else acc * 10 + (c.toNat - 48)) 0

/-- Embedding of Python `int(s)` on a string: strip whitespace, accept an
optional sign followed by a digit run, and raise `ValueError` (modelled as
`Except.error`) otherwise.  Non-ASCII decimal digits are not modelled; no
claim uses them. -/
def pyIntOfStr (s : PyStr) : Except Unit Int :=
  let t := pyStrip s
  match t with
  | '+' :: r => if digitRun r then .ok (Int.ofNat (digitsVal r)) else .error ()
  | '-' :: r => if digitRun r then .ok (-(Int.ofNat (digitsVal r))) else .error ()
  | r => if digitRun r then .ok (Int.ofNat (digitsVal r)) else .error ()

/-- Embedding of `max_concurrent = int(os.getenv("LINKVALIDATE_COUNT", 2))`
(gnb.py line 377, shop.py line 305): when the variable is unset, `getenv`
returns the integer default 2 and `int` passes it through; when it is set,
`int` parses the string and a `ValueError` propagates out of
`check_link_validity`. -/
def max_concurrent_of (env : Option PyStr) : Except Unit Int :=
  match env with
  | none => .ok 2
  | some v => pyIntOfStr v

/-- Number of worker tasks started by
`[asyncio.create_task(worker(i+1)) for i in range(max_concurrent)]`:
`len(range(m))`, which is `m` clamped to zero. -/
def worker_pool_size (m : Int) : Nat := m.toNat

/-- A menu node (`GnbMenuNode` / `ShopMenuNode`), restricted to the fields
the link-validation engine reads or writes.  Children live in `MenuTree`. -/
structure Node where
  node_type : PyStr
  name : PyStr
  url : PyStr
  link_status : Int
  link_validate : Bool
  link_validate_desc : PyStr
deriving DecidableEq, Repr

/-- Outcome of one navigation attempt, abstracting the external calls
`context.new_page()`, `new_page.goto(refined)` and
`new_page.wait_for_selector("body")`: either all three succeed and `goto`
returned a response object with a status and a final URL, or `goto`
returned `None`, or one of them raised with the given message.  Closing the
page is modelled as always succeeding. -/
inductive AttemptOutcome where
  | resp (status : Int) (finalUrl : PyStr)
  | noResponse
  | exn (msg : PyStr)
deriving DecidableEq, Repr

/-- The string `f"Exception: {e}"`. -/
def excDesc (m : PyStr) : PyStr := "Exception: ".data ++ m

/-- The string `f"Redirected to {response.url}"`. -/
def redirDesc (finalUrl : PyStr) : PyStr := "Redirected to ".data ++ finalUrl

/-- The string `f"HTTP {status_code}"`. -/
def httpDesc (st : Int) : PyStr := "HTTP ".data ++ (toString st).data

/-- The `base_url` computed in `validate_node` from `page.url`:
`f"{urlparse(page.url).scheme}://{urlparse(page.url).netloc}"`, with the
enclosing `try`/`except` turning a parse error into the empty string. -/
def base_url_of (pageUrl : PyStr) : PyStr :=
  match urlparseE pageUrl with
  | .ok p => p.scheme ++ "://".data ++ p.netloc
  | .error _ => []

/-- The retry loop of gnb's `validate_node` (gnb.py lines 418-459).  `fuel`
is `max_retries - retries`, `statusCode` the local `status_code`, and the
result carries the number of attempts performed.  Each iteration:
`refine_url` raising is caught as an exception; otherwise the attempt
outcome is classified.  A response returns immediately (status 200 writes
the redirect comparison of `standardize_url` on the refined and final URLs
and sets `link_validate`; any other status writes `HTTP <code>`), except
that a `standardize_url` error inside the 200 branch is caught by the
`except` clause after `link_status` was already written.  `None` responses
and exceptions fall through to the next retry; on exhaustion
`node.link_status = status_code` is executed. -/
def validateLoopGnb (oracle : Nat → AttemptOutcome) (refinedE : Except UrlErr PyStr) :
    Nat → Nat → Int → Node → Node × Nat
  | 0, retries, statusCode, n => ({ n with link_status := statusCode }, retries)
  | fuel + 1, retries, statusCode, n =>
    match refinedE with
    | .error e =>
      validateLoopGnb oracle refinedE fuel (retries + 1) statusCode
        { n with link_validate_desc := excDesc (urlErrMsg e) }
    | .ok refined =>
      match oracle retries with
      | .exn m =>
        validateLoopGnb oracle refinedE fuel (retries + 1) statusCode
          { n with link_validate_desc := excDesc m }
      | .noResponse =>
        validateLoopGnb oracle refinedE fuel (retries + 1) statusCode
          { n with link_validate_desc := "No response".data }
      | .resp st finalUrl =>
        let n := { n with link_status := st }
        if st = 200 then
          match standardize_url refined, standardize_url finalUrl with
          | .ok a, .ok b =>
            ({ n with
                link_validate_desc := if a ≠ b then redirDesc finalUrl else [],
                link_validate := true }, retries + 1)
          | .error e, _ =>
            validateLoopGnb oracle refinedE fuel (retries + 1) st
              { n with link_validate_desc := excDesc (urlErrMsg e) }
          | .ok _, .error e =>
            validateLoopGnb oracle refinedE fuel (retries + 1) st
              { n with link_validate_desc := excDesc (urlErrMsg e) }
        else
          ({ n with link_validate_desc := httpDesc st }, retries + 1)

/-- Embedding of gnb's `validate_node` (gnb.py lines 397-460): reset the
three result fields, short-circuit an empty URL, compute `base_url` from
the page URL, refine the node URL once (the call is deterministic, so
hoisting it out of the loop is sound), and run up to `max_retries = 5`
attempts.  Returns the final node and the number of attempts. -/
def validate_node_gnb (oracle : Nat → AttemptOutcome) (pageUrl : PyStr)
    (node : Node) : Node × Nat :=
  let n := { node with link_validate := false, link_status := -1,
                       link_validate_desc := ([] : PyStr) }
  if n.url = [] then
    ({ n with link_validate_desc := "[Status:-1] Empty url".data }, 0)
  else
    validateLoopGnb oracle (refine_url n.url (base_url_of pageUrl)) 5 0 (-1) n

/-- The retry loop of shop's `validate_node` (shop.py lines 362-403); the
loop body is textually identical to gnb's. -/
def validateLoopShop (oracle : Nat → AttemptOutcome) (refinedE : Except UrlErr PyStr) :
    Nat → Nat → Int → Node → Node × Nat
  | 0, retries, statusCode, n => ({ n with link_status := statusCode }, retries)
  | fuel + 1, retries, statusCode, n =>
    match refinedE with
    | .error e =>
      validateLoopShop oracle refinedE fuel (retries + 1) statusCode
        { n with link_validate_desc := excDesc (urlErrMsg e) }
    | .ok refined =>
      match oracle retries with
      | .exn m =>
        validateLoopShop oracle refinedE fuel (retries + 1) statusCode
          { n with link_validate_desc := excDesc m }
      | .noResponse =>
        validateLoopShop oracle refinedE fuel (retries + 1) statusCode
          { n with link_validate_desc := "No response".data }
      | .resp st finalUrl =>
        let n := { n with link_status := st }
        if st = 200 then
          match standardize_url refined, standardize_url finalUrl with
          | .ok a, .ok b =>
            ({ n with
                link_validate_desc := if a ≠ b then redirDesc finalUrl else [],
                link_validate := true }, retries + 1)
          | .error e, _ =>
            validateLoopShop oracle refinedE fuel (retries + 1) st
              { n with link_validate_desc := excDesc (urlErrMsg e) }
          | .ok _, .error e =>
            validateLoopShop oracle refinedE fuel (retries + 1) st
              { n with link_validate_desc := excDesc (urlErrMsg e) }
        else
          ({ n with link_validate_desc := httpDesc st }, retries + 1)

/-- Embedding of shop's `validate_node` (shop.py lines 328-404): reset the
three result fields, special-case `L0`/`L1` nodes without a URL, then
proceed exactly as the gnb variant. -/
def validate_node_shop (oracle : Nat → AttemptOutcome) (pageUrl : PyStr)
    (node : Node) : Node × Nat :=
  let n := { node with link_validate := false, link_status := -1,
                       link_validate_desc := ([] : PyStr) }
  if n.node_type = "L0".data ∧ n.url = [] then
    ({ n with link_validate := true, link_status := -1,
              link_validate_desc := "L0 has no link by design".data }, 0)
  else if n.node_type = "L1".data ∧ n.url = [] then
    ({ n with link_validate := false, link_status := -1,
              link_validate_desc := "Has no link".data }, 0)
  else if n.url = [] then
    ({ n with link_validate_desc := "[Status:-1] Empty url".data }, 0)
  else
    validateLoopShop oracle (refine_url n.url (base_url_of pageUrl)) 5 0 (-1) n

/-- A menu tree: node data plus ordered children. -/
inductive MenuTree where
  | node (data : Node) (children : List MenuTree)

mutual

/-- Embedding of gnb's `flatten_with_link` (gnb.py lines 380-386):
pre-order collection of the nodes with a truthy (nonempty) `url`. -/
def flatten_with_link : MenuTree → List Node
  | .node d cs => (if d.url ≠ [] then [d] else []) ++ flattenListGnb cs

/-- The `for child in node.children: result.extend(...)` part of gnb's
`flatten_with_link`. -/
def flattenListGnb : List MenuTree → List Node
  | [] => []
  | t :: ts => flatten_with_link t ++ flattenListGnb ts

end

mutual

/-- Embedding of shop's `flatten_with_link` (shop.py lines 308-314): also
collects `L0`/`L1` nodes whose `url` is empty. -/
def flatten_with_link_shop : MenuTree → List Node
  | .node d cs =>
    (if d.url ≠ [] ∨ d.node_type = "L0".data ∨ d.node_type = "L1".data then [d] else [])
      ++ flattenListShop cs

/-- The child loop of shop's `flatten_with_link`. -/
def flattenListShop : List MenuTree → List Node
  | [] => []
  | t :: ts => flatten_with_link_shop t ++ flattenListShop ts

end

mutual

/-- Net effect of gnb's `check_link_validity` on the tree: every node that
`flatten_with_link` enqueues is mutated in place by exactly one
`validate_node` call (the queue hands each item out once, see the pool
model below), every other node is untouched.  The oracle is per node. -/
def run_gnb_tree (oracle : Node → Nat → AttemptOutcome) (pageUrl : PyStr) :
    MenuTree → MenuTree
  | .node d cs =>
    .node (if d.url ≠ [] then (validate_node_gnb (oracle d) pageUrl d).1 else d)
      (run_gnb_list oracle pageUrl cs)

/-- Child traversal of `run_gnb_tree`. -/
def run_gnb_list (oracle : Node → Nat → AttemptOutcome) (pageUrl : PyStr) :
    List MenuTree → List MenuTree
  | [] => []
  | t :: ts => run_gnb_tree oracle pageUrl t :: run_gnb_list oracle pageUrl ts

end

mutual

/-- Net effect of shop's `check_link_validity` on the tree, with shop's
enqueue condition and validator. -/
def run_shop_tree (oracle : Node → Nat → AttemptOutcome) (pageUrl : PyStr) :
    MenuTree → MenuTree
  | .node d cs =>
    .node
      (if d.url ≠ [] ∨ d.node_type = "L0".data ∨ d.node_type = "L1".data then
        (validate_node_shop (oracle d) pageUrl d).1
       else d)
      (run_shop_list oracle pageUrl cs)

/-- Child traversal of `run_shop_tree`. -/
def run_shop_list (oracle : Node → Nat → AttemptOutcome) (pageUrl : PyStr) :
    List MenuTree → List MenuTree
  | [] => []
  | t :: ts => run_shop_tree oracle pageUrl t :: run_shop_list oracle pageUrl ts

end

/-- What one worker coroutine does with the remainder of the queue
(gnb.py lines 462-471, shop.py lines 406-415).  The loop body is
`try: validate_node(...) finally: queue.task_done()` with no `except`
clause, so an unexpected exception from the validator marks the item done
and then propagates, ending the loop.  `tasksDone` lists the items fetched
and marked done, `remaining` what was still queued when the worker stopped,
and `crashed` the escaped exception, if any. -/
structure WorkerRun where
  tasksDone : List Nat
  remaining : List Nat
  crashed : Option PyStr
deriving DecidableEq, Repr

/-- Run of one worker over a queue: items are validated in order until the
queue is empty (the worker then blocks and is later cancelled normally) or
the validator raises an unexpected exception. -/
def worker_run (validate : Nat → Except PyStr Unit) : List Nat → WorkerRun
  | [] => ⟨[], [], none⟩
  | i :: rest =>
    match validate i with
    | .ok _ =>
      let r := worker_run validate rest
      ⟨i :: r.tasksDone, r.remaining, r.crashed⟩
    | .error e => ⟨[i], rest, some e⟩

/-- State of the worker pool: the FIFO queue of not-yet-fetched items, what
each of the `w` workers currently holds, and the finished items
(items are the 1-based positions of `all_nodes`). -/
structure PoolState (w : Nat) where
  queue : List Nat
  holding : Fin w → Option Nat
  done : List Nat

/-- Atomic transitions of the pool: an idle worker takes the queue head
(`await queue.get()`), or a worker finishes its item
(`validate_node` returns, `queue.task_done()`). -/
inductive PoolStep (w : Nat) : PoolState w → PoolState w → Prop
  | take (s : PoolState w) (k : Fin w) (i : Nat) (rest : List Nat)
      (hfree : s.holding k = none) (hq : s.queue = i :: rest) :
      PoolStep w s ⟨rest, Function.update s.holding k (some i), s.done⟩
  | finish (s : PoolState w) (k : Fin w) (i : Nat)
      (hheld : s.holding k = some i) :
      PoolStep w s ⟨s.queue, Function.update s.holding k none, i :: s.done⟩

/-- Pool state after `check_link_validity` fills the queue and starts the
workers: everything queued, all workers idle, nothing done. -/
def initPool (w : Nat) (items : List Nat) : PoolState w :=
  ⟨items, fun _ => none, []⟩

/-- Reachability under any interleaving of pool steps. -/
inductive PoolReach (w : Nat) : PoolState w → PoolState w → Prop
  | refl (s : PoolState w) : PoolReach w s s
  | tail {s t u : PoolState w} : PoolReach w s t → PoolStep w t u → PoolReach w s u

/-- How many workers currently hold item `i`. -/
def heldCount {w : Nat} (s : PoolState w) (i : Nat) : Nat :=
  (Finset.univ.filter (fun k => s.holding k = some i)).card

instance {ε α : Type} [DecidableEq ε] [DecidableEq α] : DecidableEq (Except ε α) :=
  fun a b =>
    match a, b with
    | .ok x, .ok y =>
      if h : x = y then isTrue (by rw [h])
      else isFalse (by intro hc; cases hc; exact h rfl)
    | .ok _, .error _ => isFalse (by intro hc; cases hc)
    | .error _, .ok _ => isFalse (by intro hc; cases hc)
    | .error e, .error f =>
      if h : e = f then isTrue (by rw [h])
      else isFalse (by intro hc; cases hc; exact h rfl)

/-- When every attempt in range raises, the gnb retry loop runs to
exhaustion: the description is the exception text of the last attempt and
`link_status` is set from the local `status_code`. -/
theorem loopGnb_all_exn (oracle : Nat → AttemptOutcome) (refined : PyStr) (m : Nat → PyStr) :
    ∀ (fuel retries : Nat) (sc : Int) (n : Node),
      (∀ i, retries ≤ i → i < retries + (fuel + 1) → oracle i = .exn (m i)) →
      validateLoopGnb oracle (.ok refined) (fuel + 1) retries sc n =
        ({ n with link_validate_desc := excDesc (m (retries + fuel)),
                  link_status := sc }, retries + (fuel + 1)) := by
  intro fuel
  induction fuel with
  | zero =>
    intro retries sc n h
    have h0 : oracle retries = .exn (m retries) := h retries le_rfl (by omega)
    cases n
    simp only [validateLoopGnb, h0, Nat.add_zero]
  | succ fuel ih =>
    intro retries sc n h
    have h0 : oracle retries = .exn (m retries) := h retries le_rfl (by omega)
    have step :
        validateLoopGnb oracle (.ok refined) (fuel + 1 + 1) retries sc n =
          validateLoopGnb oracle (.ok refined) (fuel + 1) (retries + 1) sc
            { n with link_validate_desc := excDesc (m retries) } := by
      simp only [validateLoopGnb, h0]
    rw [step, ih (retries + 1) sc _ (fun i h1 h2 => h i (by omega) (by omega))]
    have e1 : retries + 1 + fuel = retries + (fuel + 1) := by omega
    have e2 : retries + 1 + (fuel + 1) = retries + (fuel + 1 + 1) := by omega
    cases n
    simp only [e1, e2]

/-- Shop twin of `loopGnb_all_exn`. -/
theorem loopShop_all_exn (oracle : Nat → AttemptOutcome) (refined : PyStr) (m : Nat → PyStr) :
    ∀ (fuel retries : Nat) (sc : Int) (n : Node),
      (∀ i, retries ≤ i → i < retries + (fuel + 1) → oracle i = .exn (m i)) →
      validateLoopShop oracle (.ok refined) (fuel + 1) retries sc n =
        ({ n with link_validate_desc := excDesc (m (retries + fuel)),
                  link_status := sc }, retries + (fuel + 1)) := by
  intro fuel
  induction fuel with
  | zero =>
    intro retries sc n h
    have h0 : oracle retries = .exn (m retries) := h retries le_rfl (by omega)
    cases n
    simp only [validateLoopShop, h0, Nat.add_zero]
  | succ fuel ih =>
    intro retries sc n h
    have h0 : oracle retries = .exn (m retries) := h retries le_rfl (by omega)
    have step :
        validateLoopShop oracle (.ok refined) (fuel + 1 + 1) retries sc n =
          validateLoopShop oracle (.ok refined) (fuel + 1) (retries + 1) sc
            { n with link_validate_desc := excDesc (m retries) } := by
      simp only [validateLoopShop, h0]
    rw [step, ih (retries + 1) sc _ (fun i h1 h2 => h i (by omega) (by omega))]
    have e1 : retries + 1 + fuel = retries + (fuel + 1) := by omega
    have e2 : retries + 1 + (fuel + 1) = retries + (fuel + 1 + 1) := by omega
    cases n
    simp only [e1, e2]

/-- A failing attempt (no response object, or an exception) only rewrites
the description and moves the gnb loop to the next retry. -/
theorem loopGnb_fail_shift (oracle : Nat → AttemptOutcome) (refined : PyStr)
    (fuel retries : Nat) (sc : Int) (n : Node)
    (hfail : oracle retries = .noResponse ∨ ∃ mm, oracle retries = .exn mm) :
    ∃ d2, validateLoopGnb oracle (.ok refined) (fuel + 1) retries sc n =
      validateLoopGnb oracle (.ok refined) fuel (retries + 1) sc
        { n with link_validate_desc := d2 } := by
  rcases hfail with h | ⟨mm, h⟩
  · exact ⟨"No response".data, by simp only [validateLoopGnb, h]⟩
  · exact ⟨excDesc mm, by simp only [validateLoopGnb, h]⟩

/-- A run of `k` failing attempts shifts the gnb loop by `k`, changing only
the description. -/
theorem loopGnb_skip (oracle : Nat → AttemptOutcome) (refined : PyStr) (k : Nat) :
    ∀ (fuel retries : Nat) (sc : Int) (n : Node),
      (∀ i, retries ≤ i → i < retries + k →
        oracle i = .noResponse ∨ ∃ mm, oracle i = .exn mm) →
      ∃ d2, validateLoopGnb oracle (.ok refined) (fuel + k) retries sc n =
        validateLoopGnb oracle (.ok refined) fuel (retries + k) sc
          { n with link_validate_desc := d2 } := by
  induction k with
  | zero =>
    intro fuel retries sc n _
    exact ⟨n.link_validate_desc, by cases n; rfl⟩
  | succ k ih =>
    intro fuel retries sc n h
    obtain ⟨d1, h1⟩ := loopGnb_fail_shift oracle refined (fuel + k) retries sc n
      (h retries le_rfl (by omega))
    obtain ⟨d2, h2⟩ := ih fuel (retries + 1) sc { n with link_validate_desc := d1 }
      (fun i hi1 hi2 => h i (by omega) (by omega))
    refine ⟨d2, ?_⟩
    have e0 : fuel + (k + 1) = (fuel + k) + 1 := by omega
    rw [e0, h1, h2]
    have e1 : retries + 1 + k = retries + (k + 1) := by omega
    cases n
    simp only [e1]

/-- Claim C1, counterexample: with a mock that answers HTTP 404 on every
attempt, gnb's `validate_node` on the node with url `//other.com/page`
returns after exactly 1 attempt, not 5: a non-200 response is terminal
because the response branch returns without retrying. -/
theorem c1_counterexample :
    validate_node_gnb (fun _ => .resp 404 "https://other.com/page".data)
      "https://example.com".data
      ⟨"L1".data, "n".data, "//other.com/page".data, -1, false, []⟩ =
    (⟨"L1".data, "n".data, "//other.com/page".data, 404, false, "HTTP 404".data⟩, 1) ∧
    ¬ ((validate_node_gnb (fun _ => .resp 404 "https://other.com/page".data)
      "https://example.com".data
      ⟨"L1".data, "n".data, "//other.com/page".data, -1, false, []⟩).2 = 5) := by
  exact ⟨rfl, by decide⟩

/-- Claim C1, amended: in both engine variants a response with a non-200
status is a terminal outcome of the first attempt that receives it — the
validator returns immediately with `link_validate = false`,
`link_status = <code>` and `link_validate_desc = "HTTP <code>"`, after
exactly 1 attempt when the first attempt gets the response, with no
retry. -/
theorem c1_non200_terminal (oracle : Nat → AttemptOutcome) (pageUrl : PyStr)
    (node : Node) (st : Int) (finalUrl refined : PyStr)
    (hurl : node.url ≠ [])
    (href : refine_url node.url (base_url_of pageUrl) = .ok refined)
    (h0 : oracle 0 = .resp st finalUrl) (hst : st ≠ 200) :
    validate_node_gnb oracle pageUrl node =
      ({ node with link_validate := false, link_status := st,
                   link_validate_desc := httpDesc st }, 1) ∧
    validate_node_shop oracle pageUrl node =
      ({ node with link_validate := false, link_status := st,
                   link_validate_desc := httpDesc st }, 1) := by
  constructor
  · cases node with
    | mk ty nm u ls lv ld =>
      simp only [validate_node_gnb] at *
      simp only [if_neg hurl]
      simp only [validateLoopGnb, href, h0]
      simp [hst]
  · cases node with
    | mk ty nm u ls lv ld =>
      simp only [validate_node_shop] at *
      have hL0 : ¬ (ty = "L0".data ∧ u = []) := fun hc => hurl hc.2
      have hL1 : ¬ (ty = "L1".data ∧ u = []) := fun hc => hurl hc.2
      simp only [if_neg hL0, if_neg hL1, if_neg hurl]
      simp only [validateLoopShop, href, h0]
      simp [hst]

/-- Claim C1, witness for the amended theorem at a concrete input. -/
theorem c1_non200_terminal_witness :
    validate_node_gnb (fun _ => .resp 404 "https://other.com/page".data)
      "https://example.com".data
      ⟨"L1".data, "n".data, "//other.com/page".data, -1, false, []⟩ =
    (⟨"L1".data, "n".data, "//other.com/page".data, 404, false, "HTTP 404".data⟩, 1) ∧
    validate_node_shop (fun _ => .resp 404 "https://other.com/page".data)
      "https://example.com".data
      ⟨"L1".data, "n".data, "//other.com/page".data, -1, false, []⟩ =
    (⟨"L1".data, "n".data, "//other.com/page".data, 404, false, "HTTP 404".data⟩, 1) := by
  exact c1_non200_terminal (fun _ => .resp 404 "https://other.com/page".data)
    "https://example.com".data
    ⟨"L1".data, "n".data, "//other.com/page".data, -1, false, []⟩
    404 "https://other.com/page".data "https://other.com/page".data
    (by decide) (by decide) rfl (by decide)

/-- Claim C5: when every navigation attempt raises, both validators
perform exactly 5 attempts and the node ends with `link_validate = false`,
`link_status = -1`, and the exception text of the last (5th) attempt as
its description. -/
theorem c5_retry_exhaustion (oracle : Nat → AttemptOutcome) (pageUrl : PyStr)
    (node : Node) (m : Nat → PyStr) (refined : PyStr)
    (hurl : node.url ≠ [])
    (href : refine_url node.url (base_url_of pageUrl) = .ok refined)
    (hexn : ∀ i, i < 5 → oracle i = .exn (m i)) :
    validate_node_gnb oracle pageUrl node =
      ({ node with link_validate := false, link_status := -1,
                   link_validate_desc := excDesc (m 4) }, 5) ∧
    validate_node_shop oracle pageUrl node =
      ({ node with link_validate := false, link_status := -1,
                   link_validate_desc := excDesc (m 4) }, 5) := by
  constructor
  · cases node with
    | mk ty nm u ls lv ld =>
      simp only [validate_node_gnb] at *
      simp only [if_neg hurl, href]
      have := loopGnb_all_exn oracle refined m 4 0 (-1)
        ⟨ty, nm, u, -1, false, []⟩ (fun i h1 h2 => hexn i (by omega))
      simpa using this
  · cases node with
    | mk ty nm u ls lv ld =>
      simp only [validate_node_shop] at *
      have hL0 : ¬ (ty = "L0".data ∧ u = []) := fun hc => hurl hc.2
      have hL1 : ¬ (ty = "L1".data ∧ u = []) := fun hc => hurl hc.2
      simp only [if_neg hL0, if_neg hL1, if_neg hurl, href]
      have := loopShop_all_exn oracle refined m 4 0 (-1)
        ⟨ty, nm, u, -1, false, []⟩ (fun i h1 h2 => hexn i (by omega))
      simpa using this

/-- Claim C5, witness: a node with url `/a` and a mock timeout on all 5
attempts. -/
theorem c5_retry_exhaustion_witness :
    validate_node_gnb (fun _ => .exn "Timeout 20000ms exceeded".data)
      "https://example.com".data
      ⟨"L1".data, "n".data, "/a".data, -1, false, []⟩ =
    (⟨"L1".data, "n".data, "/a".data, -1, false,
      "Exception: Timeout 20000ms exceeded".data⟩, 5) ∧
    validate_node_shop (fun _ => .exn "Timeout 20000ms exceeded".data)
      "https://example.com".data
      ⟨"L1".data, "n".data, "/a".data, -1, false, []⟩ =
    (⟨"L1".data, "n".data, "/a".data, -1, false,
      "Exception: Timeout 20000ms exceeded".data⟩, 5) := by
  exact c5_retry_exhaustion (fun _ => .exn "Timeout 20000ms exceeded".data)
    "https://example.com".data
    ⟨"L1".data, "n".data, "/a".data, -1, false, []⟩
    (fun _ => "Timeout 20000ms exceeded".data)
    "https://example.com/a".data
    (by decide) (by decide) (fun i _ => rfl)

/-- Claim C6: when attempt `k` (after `k` failed attempts) receives a
status-200 response, the node ends validated with status 200, and the
description is `Redirected to <finalUrl>` exactly when the canonicalized
refined URL differs from the canonicalized final URL, and empty when they
match. -/
theorem c6_status200_verdict (oracle : Nat → AttemptOutcome) (pageUrl : PyStr)
    (node : Node) (k : Nat) (finalUrl refined a b : PyStr)
    (hurl : node.url ≠ [])
    (href : refine_url node.url (base_url_of pageUrl) = .ok refined)
    (hk : k < 5)
    (hbefore : ∀ i, i < k → oracle i = .noResponse ∨ ∃ mm, oracle i = .exn mm)
    (hresp : oracle k = .resp 200 finalUrl)
    (ha : standardize_url refined = .ok a)
    (hb : standardize_url finalUrl = .ok b) :
    validate_node_gnb oracle pageUrl node =
      ({ node with link_validate := true, link_status := 200,
                   link_validate_desc := if a ≠ b then redirDesc finalUrl else [] },
       k + 1) := by
  cases node with
  | mk ty nm u ls lv ld =>
    simp only [validate_node_gnb] at *
    simp only [if_neg hurl, href]
    obtain ⟨j, hj⟩ : ∃ j, 5 = (j + 1) + k := ⟨4 - k, by omega⟩
    rw [hj]
    obtain ⟨d2, hskip⟩ := loopGnb_skip oracle refined k (j + 1) 0 (-1)
      ⟨ty, nm, u, -1, false, []⟩ (fun i h1 h2 => hbefore i (by omega))
    rw [hskip]
    have hzk : 0 + k = k := by omega
    rw [hzk]
    simp only [validateLoopGnb, hresp, ha, hb]
    simp

/-- Claim C6, witness: base origin `https://example.com`, node url `/a`,
and a 200 response whose final URL `https://example.com/b` canonicalizes
differently from the refined URL. -/
theorem c6_status200_verdict_witness :
    validate_node_gnb (fun _ => .resp 200 "https://example.com/b".data)
      "https://example.com".data
      ⟨"L1".data, "n".data, "/a".data, -1, false, []⟩ =
    (⟨"L1".data, "n".data, "/a".data, 200, true,
      "Redirected to https://example.com/b".data⟩, 1) := by
  have h := c6_status200_verdict (fun _ => .resp 200 "https://example.com/b".data)
    "https://example.com".data
    ⟨"L1".data, "n".data, "/a".data, -1, false, []⟩
    0 "https://example.com/b".data "https://example.com/a".data
    "https://example.com/a".data "https://example.com/b".data
    (by decide) (by decide) (by decide)
    (fun i hi => absurd hi (by omega)) rfl (by decide) (by decide)
  simpa using h

/-- Claim C7, counterexample: a non-numeric `LINKVALIDATE_COUNT` does not
fall back to the default 2; `int("abc")` raises a `ValueError` that
surfaces out of `check_link_validity`. -/
theorem c7_counterexample :
    max_concurrent_of (some "abc".data) = .error () ∧
    ¬ (max_concurrent_of (some "abc".data) = .ok 2) := by
  exact ⟨rfl, by decide⟩

/-- Claim C7, amended: the concurrency level defaults to 2 only when the
environment variable is unset; when it is set, Python `int` parsing is
applied and its `ValueError` surfaces; when the parse succeeds with a
non-negative value, a pool of exactly that many workers is started. -/
theorem c7_concurrency_config :
    max_concurrent_of none = .ok 2 ∧
    (∀ s : PyStr, max_concurrent_of (some s) = pyIntOfStr s) ∧
    (∀ m : Int, 0 ≤ m → (worker_pool_size m : Int) = m) := by
  refine ⟨rfl, fun s => rfl, fun m hm => ?_⟩
  simp only [worker_pool_size]
  omega

/-- Claim C7, witness: the pool-size conjunct at the default value 2. -/
theorem c7_concurrency_config_witness :
    (0 : Int) ≤ 2 ∧ (worker_pool_size 2 : Int) = 2 :=
  ⟨by decide, c7_concurrency_config.2.2 2 (by decide)⟩

/-- Claim C10: both validators overwrite the three result fields before
any attempt, so their output never depends on the caller-assigned values
of `link_status`, `link_validate`, `link_validate_desc`. -/
theorem c10_reset_fields (oracle : Nat → AttemptOutcome) (pageUrl : PyStr)
    (ty nm u : PyStr) (ls1 ls2 : Int) (lv1 lv2 : Bool) (ld1 ld2 : PyStr) :
    validate_node_gnb oracle pageUrl ⟨ty, nm, u, ls1, lv1, ld1⟩ =
      validate_node_gnb oracle pageUrl ⟨ty, nm, u, ls2, lv2, ld2⟩ ∧
    validate_node_shop oracle pageUrl ⟨ty, nm, u, ls1, lv1, ld1⟩ =
      validate_node_shop oracle pageUrl ⟨ty, nm, u, ls2, lv2, ld2⟩ :=
  ⟨rfl, rfl⟩

/-- Claim C4, counterexample: a worker whose validator raises on the first
item marks that item done and then stops; with items still on the queue,
the pool is left one worker short and the item after the failure is not
processed by this worker — it does not record the failure and continue. -/
theorem c4_counterexample :
    worker_run (fun i => if i = 0 then .error "boom".data else .ok ()) [0, 1] =
      ⟨[0], [1], some "boom".data⟩ ∧
    ¬ ((worker_run (fun i => if i = 0 then .error "boom".data else .ok ()) [0, 1]).remaining = []) := by
  exact ⟨rfl, by decide⟩

/-- Claim C4, amended: the worker loop has no `except` around
`validate_node`, so an unexpected validator exception terminates the worker
after `queue.task_done()`: the worker processes the error-free items before
the failing one, marks the failing item done, and leaves every later item
on the queue for the surviving workers; if no worker survives, `queue.join`
never completes. -/
theorem c4_worker_crash (validate : Nat → Except PyStr Unit)
    (xs ys : List Nat) (i : Nat) (e : PyStr)
    (hok : ∀ j ∈ xs, validate j = .ok ())
    (hbad : validate i = .error e) :
    worker_run validate (xs ++ i :: ys) = ⟨xs ++ [i], ys, some e⟩ := by
  induction xs with
  | nil => simp only [List.nil_append, worker_run, hbad]
  | cons x xs ih =>
    have hx : validate x = .ok () := hok x (by simp)
    simp only [List.cons_append, worker_run, hx]
    simp only [List.append_eq]
    rw [ih (fun j hj => hok j (by simp [hj]))]

/-- Claim C4, witness: two good items, then a failing one, then one more. -/
theorem c4_worker_crash_witness :
    worker_run (fun j => if j = 2 then .error "boom".data else .ok ()) ([0, 1] ++ 2 :: [3]) =
      ⟨[0, 1] ++ [2], [3], some "boom".data⟩ := by
  exact c4_worker_crash (fun j => if j = 2 then .error "boom".data else .ok ())
    [0, 1] [3] 2 "boom".data (by decide) (by decide)

mutual

/-- All node data of a tree, in pre-order. -/
def allNodes : MenuTree → List Node
  | .node d cs => d :: allNodesList cs

/-- All node data of a forest. -/
def allNodesList : List MenuTree → List Node
  | [] => []
  | t :: ts => allNodes t ++ allNodesList ts

end

mutual

/-- Every node collected by gnb's `flatten_with_link` has a nonempty url. -/
theorem flatten_gnb_url_nonempty :
    ∀ t : MenuTree, ∀ d ∈ flatten_with_link t, d.url ≠ []
  | .node dd cs => by
    intro d hd
    simp only [flatten_with_link, List.mem_append] at hd
    rcases hd with hd | hd
    · by_cases h : dd.url ≠ []
      · simp only [if_pos h, List.mem_singleton] at hd
        rw [hd]; exact h
      · simp only [if_neg h] at hd
        exact absurd hd (List.not_mem_nil d)
    · exact flatten_list_gnb_url_nonempty cs d hd

/-- Forest version of `flatten_gnb_url_nonempty`. -/
theorem flatten_list_gnb_url_nonempty :
    ∀ ts : List MenuTree, ∀ d ∈ flattenListGnb ts, d.url ≠ []
  | [] => by intro d hd; exact absurd hd (List.not_mem_nil d)
  | t :: ts => by
    intro d hd
    simp only [flattenListGnb, List.mem_append] at hd
    rcases hd with hd | hd
    · exact flatten_gnb_url_nonempty t d hd
    · exact flatten_list_gnb_url_nonempty ts d hd

end

mutual

/-- Pointwise frame of the gnb run: nodes with an empty url are returned
unchanged. -/
theorem run_gnb_frame (o : Node → Nat → AttemptOutcome) (p : PyStr) :
    ∀ t : MenuTree,
      List.Forall₂ (fun d d2 => d.url = [] → d2 = d)
        (allNodes t) (allNodes (run_gnb_tree o p t))
  | .node dd cs => by
    simp only [allNodes, run_gnb_tree]
    refine List.Forall₂.cons ?_ (run_gnb_frame_list o p cs)
    intro hurl
    simp [hurl]

/-- Forest version of `run_gnb_frame`. -/
theorem run_gnb_frame_list (o : Node → Nat → AttemptOutcome) (p : PyStr) :
    ∀ ts : List MenuTree,
      List.Forall₂ (fun d d2 => d.url = [] → d2 = d)
        (allNodesList ts) (allNodesList (run_gnb_list o p ts))
  | [] => by simp [allNodesList, run_gnb_list]
  | t :: ts => by
    simp only [allNodesList, run_gnb_list]
    exact List.rel_append (run_gnb_frame o p t) (run_gnb_frame_list o p ts)

end

mutual

/-- Pointwise frame of the shop run: nodes with an empty url are returned
unchanged only when their type is neither `L0` nor `L1`. -/
theorem run_shop_frame (o : Node → Nat → AttemptOutcome) (p : PyStr) :
    ∀ t : MenuTree,
      List.Forall₂
        (fun d d2 => d.url = [] ∧ d.node_type ≠ "L0".data ∧ d.node_type ≠ "L1".data → d2 = d)
        (allNodes t) (allNodes (run_shop_tree o p t))
  | .node dd cs => by
    simp only [allNodes, run_shop_tree]
    refine List.Forall₂.cons ?_ (run_shop_frame_list o p cs)
    intro h
    rcases h with ⟨hurl, hL0, hL1⟩
    have : ¬ (dd.url ≠ [] ∨ dd.node_type = "L0".data ∨ dd.node_type = "L1".data) := by
      intro hc
      rcases hc with hc | hc | hc
      · exact hc hurl
      · exact hL0 hc
      · exact hL1 hc
    simp [this]

/-- Forest version of `run_shop_frame`. -/
theorem run_shop_frame_list (o : Node → Nat → AttemptOutcome) (p : PyStr) :
    ∀ ts : List MenuTree,
      List.Forall₂
        (fun d d2 => d.url = [] ∧ d.node_type ≠ "L0".data ∧ d.node_type ≠ "L1".data → d2 = d)
        (allNodesList ts) (allNodesList (run_shop_list o p ts))
  | [] => by simp [allNodesList, run_shop_list]
  | t :: ts => by
    simp only [allNodesList, run_shop_list]
    exact List.rel_append (run_shop_frame o p t) (run_shop_frame_list o p ts)

end

/-- Claim C2, counterexample: shop's `flatten_with_link` enqueues an `L0`
node whose url is empty, and the run rewrites all three of its result
fields (`link_validate` becomes `true`), so empty-url nodes are neither
kept off the queue nor left untouched in the shop variant. -/
theorem c2_counterexample :
    flatten_with_link_shop
      (.node ⟨"L0".data, "m".data, [], -1, false, "not applicable".data⟩ []) =
      [⟨"L0".data, "m".data, [], -1, false, "not applicable".data⟩] ∧
    run_shop_tree (fun _ _ => .noResponse) "https://example.com".data
      (.node ⟨"L0".data, "m".data, [], -1, false, "not applicable".data⟩ []) =
      .node ⟨"L0".data, "m".data, [], -1, true, "L0 has no link by design".data⟩ [] := by
  exact ⟨rfl, rfl⟩

/-- Claim C2, amended: in the gnb variant a node with an empty url is never
enqueued and its fields are unchanged by the run; in the shop variant the
same holds only for nodes whose type is neither `L0` nor `L1` (those are
enqueued even without a url).  A whitespace-only url is truthy in Python,
so such nodes are enqueued; only the exactly-empty url is excluded. -/
theorem c2_empty_url_frame (o : Node → Nat → AttemptOutcome) (p : PyStr) (t : MenuTree) :
    (∀ d ∈ flatten_with_link t, d.url ≠ []) ∧
    List.Forall₂ (fun d d2 => d.url = [] → d2 = d)
      (allNodes t) (allNodes (run_gnb_tree o p t)) ∧
    List.Forall₂
      (fun d d2 => d.url = [] ∧ d.node_type ≠ "L0".data ∧ d.node_type ≠ "L1".data → d2 = d)
      (allNodes t) (allNodes (run_shop_tree o p t)) :=
  ⟨flatten_gnb_url_nonempty t, run_gnb_frame o p t, run_shop_frame o p t⟩

/-- Where the gnb loop can set `link_validate`: either it was already set
on entry, or the loop returned through the 200 branch, which writes status
200 together with an empty or `Redirected to <finalUrl>` description. -/
theorem loopGnb_validate_true (oracle : Nat → AttemptOutcome) (re : Except UrlErr PyStr) :
    ∀ (fuel retries : Nat) (sc : Int) (n : Node),
      ((validateLoopGnb oracle re fuel retries sc n).1.link_validate = true) →
      n.link_validate = true ∨
      ((validateLoopGnb oracle re fuel retries sc n).1.link_status = 200 ∧
       ((validateLoopGnb oracle re fuel retries sc n).1.link_validate_desc = [] ∨
        ∃ f, (validateLoopGnb oracle re fuel retries sc n).1.link_validate_desc = redirDesc f)) := by
  intro fuel
  induction fuel with
  | zero =>
    intro retries sc n h
    left
    simpa [validateLoopGnb] using h
  | succ fuel ih =>
    intro retries sc n h
    cases re with
    | error e =>
      simp only [validateLoopGnb] at h ⊢
      rcases ih (retries + 1) sc _ h with h1 | h2
      · exact Or.inl h1
      · exact Or.inr h2
    | ok refined =>
      cases horacle : oracle retries with
      | exn m =>
        simp only [validateLoopGnb, horacle] at h ⊢
        rcases ih (retries + 1) sc _ h with h1 | h2
        · exact Or.inl h1
        · exact Or.inr h2
      | noResponse =>
        simp only [validateLoopGnb, horacle] at h ⊢
        rcases ih (retries + 1) sc _ h with h1 | h2
        · exact Or.inl h1
        · exact Or.inr h2
      | resp st finalUrl =>
        by_cases hst : st = 200
        · subst hst
          cases hsa : standardize_url refined with
          | error ea =>
            simp only [validateLoopGnb, horacle, hsa, if_pos rfl] at h ⊢
            rcases ih (retries + 1) 200 _ h with h1 | h2
            · exact Or.inl h1
            · exact Or.inr h2
          | ok a =>
            cases hsb : standardize_url finalUrl with
            | error eb =>
              simp only [validateLoopGnb, horacle, hsa, hsb, if_pos rfl] at h ⊢
              rcases ih (retries + 1) 200 _ h with h1 | h2
              · exact Or.inl h1
              · exact Or.inr h2
            | ok b =>
              simp only [validateLoopGnb, horacle, hsa, hsb, if_pos rfl] at h ⊢
              right
              refine ⟨rfl, ?_⟩
              by_cases hab : a ≠ b
              · exact Or.inr ⟨finalUrl, by simp [hab]⟩
              · exact Or.inl (by simp [hab])
        · simp only [validateLoopGnb, horacle, if_neg hst] at h ⊢
          exact Or.inl h

/-- Shop twin of `loopGnb_validate_true`. -/
theorem loopShop_validate_true (oracle : Nat → AttemptOutcome) (re : Except UrlErr PyStr) :
    ∀ (fuel retries : Nat) (sc : Int) (n : Node),
      ((validateLoopShop oracle re fuel retries sc n).1.link_validate = true) →
      n.link_validate = true ∨
      ((validateLoopShop oracle re fuel retries sc n).1.link_status = 200 ∧
       ((validateLoopShop oracle re fuel retries sc n).1.link_validate_desc = [] ∨
        ∃ f, (validateLoopShop oracle re fuel retries sc n).1.link_validate_desc = redirDesc f)) := by
  intro fuel
  induction fuel with
  | zero =>
    intro retries sc n h
    left
    simpa [validateLoopShop] using h
  | succ fuel ih =>
    intro retries sc n h
    cases re with
    | error e =>
      simp only [validateLoopShop] at h ⊢
      rcases ih (retries + 1) sc _ h with h1 | h2
      · exact Or.inl h1
      · exact Or.inr h2
    | ok refined =>
      cases horacle : oracle retries with
      | exn m =>
        simp only [validateLoopShop, horacle] at h ⊢
        rcases ih (retries + 1) sc _ h with h1 | h2
        · exact Or.inl h1
        · exact Or.inr h2
      | noResponse =>
        simp only [validateLoopShop, horacle] at h ⊢
        rcases ih (retries + 1) sc _ h with h1 | h2
        · exact Or.inl h1
        · exact Or.inr h2
      | resp st finalUrl =>
        by_cases hst : st = 200
        · subst hst
          cases hsa : standardize_url refined with
          | error ea =>
            simp only [validateLoopShop, horacle, hsa, if_pos rfl] at h ⊢
            rcases ih (retries + 1) 200 _ h with h1 | h2
            · exact Or.inl h1
            · exact Or.inr h2
          | ok a =>
            cases hsb : standardize_url finalUrl with
            | error eb =>
              simp only [validateLoopShop, horacle, hsa, hsb, if_pos rfl] at h ⊢
              rcases ih (retries + 1) 200 _ h with h1 | h2
              · exact Or.inl h1
              · exact Or.inr h2
            | ok b =>
              simp only [validateLoopShop, horacle, hsa, hsb, if_pos rfl] at h ⊢
              right
              refine ⟨rfl, ?_⟩
              by_cases hab : a ≠ b
              · exact Or.inr ⟨finalUrl, by simp [hab]⟩
              · exact Or.inl (by simp [hab])
        · simp only [validateLoopShop, horacle, if_neg hst] at h ⊢
          exact Or.inl h

/-- Verdict shape of gnb's `validate_node` when it validates a node:
status 200 with an empty or redirect description. -/
theorem validate_gnb_true_inv (oracle : Nat → AttemptOutcome) (p : PyStr) (n : Node)
    (h : (validate_node_gnb oracle p n).1.link_validate = true) :
    (validate_node_gnb oracle p n).1.link_status = 200 ∧
    ((validate_node_gnb oracle p n).1.link_validate_desc = [] ∨
     ∃ f, (validate_node_gnb oracle p n).1.link_validate_desc = redirDesc f) := by
  by_cases hurl : n.url = []
  · exfalso
    simp [validate_node_gnb, hurl] at h
  · simp only [validate_node_gnb, if_neg hurl] at h ⊢
    rcases loopGnb_validate_true oracle _ 5 0 (-1) _ h with h1 | h2
    · exact absurd h1 (by simp)
    · exact h2

/-- Verdict shape of shop's `validate_node` when it validates a node:
either the 200 shape, or the `L0`-without-url special case. -/
theorem validate_shop_true_inv (oracle : Nat → AttemptOutcome) (p : PyStr) (n : Node)
    (h : (validate_node_shop oracle p n).1.link_validate = true) :
    ((validate_node_shop oracle p n).1.link_status = 200 ∧
     ((validate_node_shop oracle p n).1.link_validate_desc = [] ∨
      ∃ f, (validate_node_shop oracle p n).1.link_validate_desc = redirDesc f)) ∨
    ((validate_node_shop oracle p n).1.link_status = -1 ∧
     (validate_node_shop oracle p n).1.link_validate_desc = "L0 has no link by design".data) := by
  by_cases hL0 : n.node_type = "L0".data ∧ n.url = []
  · right
    simp [validate_node_shop, hL0]
  · by_cases hL1 : n.node_type = "L1".data ∧ n.url = []
    · exfalso
      simp [validate_node_shop, hL0, hL1] at h
    · by_cases hurl : n.url = []
      · exfalso
        have hty0 : n.node_type ≠ "L0".data := fun hc => hL0 ⟨hc, hurl⟩
        have hty1 : n.node_type ≠ "L1".data := fun hc => hL1 ⟨hc, hurl⟩
        simp [validate_node_shop, hL0, hL1, hurl, hty0, hty1] at h
      · left
        simp only [validate_node_shop, if_neg hL0, if_neg hL1, if_neg hurl] at h ⊢
        rcases loopShop_validate_true oracle _ 5 0 (-1) _ h with h1 | h2
        · exact absurd h1 (by simp)
        · exact h2

mutual

/-- Every node of the gnb run output is either the validator's output on
an enqueued node of the input, or an untouched node with an empty url. -/
theorem mem_run_gnb (o : Node → Nat → AttemptOutcome) (p : PyStr) :
    ∀ (t : MenuTree) (d2 : Node), d2 ∈ allNodes (run_gnb_tree o p t) →
      ∃ d, d ∈ allNodes t ∧
        ((d.url ≠ [] ∧ d2 = (validate_node_gnb (o d) p d).1) ∨ (d.url = [] ∧ d2 = d))
  | .node dd cs => by
    intro d2 h2
    simp only [run_gnb_tree, allNodes, List.mem_cons] at h2
    rcases h2 with h2 | h2
    · refine ⟨dd, by simp [allNodes], ?_⟩
      by_cases hurl : dd.url = []
      · right
        exact ⟨hurl, by simpa [hurl] using h2⟩
      · left
        exact ⟨hurl, by simpa [hurl] using h2⟩
    · obtain ⟨d, hd, hc⟩ := mem_run_gnb_list o p cs d2 h2
      exact ⟨d, by simp [allNodes, List.mem_cons, hd], hc⟩

/-- Forest version of `mem_run_gnb`. -/
theorem mem_run_gnb_list (o : Node → Nat → AttemptOutcome) (p : PyStr) :
    ∀ (ts : List MenuTree) (d2 : Node), d2 ∈ allNodesList (run_gnb_list o p ts) →
      ∃ d, d ∈ allNodesList ts ∧
        ((d.url ≠ [] ∧ d2 = (validate_node_gnb (o d) p d).1) ∨ (d.url = [] ∧ d2 = d))
  | [] => by intro d2 h2; exact absurd h2 (by simp [run_gnb_list, allNodesList])
  | t :: ts => by
    intro d2 h2
    simp only [run_gnb_list, allNodesList, List.mem_append] at h2
    rcases h2 with h2 | h2
    · obtain ⟨d, hd, hc⟩ := mem_run_gnb o p t d2 h2
      exact ⟨d, by simp [allNodesList, List.mem_append, hd], hc⟩
    · obtain ⟨d, hd, hc⟩ := mem_run_gnb_list o p ts d2 h2
      exact ⟨d, by simp [allNodesList, List.mem_append, hd], hc⟩

end

mutual

/-- Every node of the shop run output is either the shop validator's
output on an enqueued node, or an untouched node that shop's flatten
condition rejects. -/
theorem mem_run_shop (o : Node → Nat → AttemptOutcome) (p : PyStr) :
    ∀ (t : MenuTree) (d2 : Node), d2 ∈ allNodes (run_shop_tree o p t) →
      ∃ d, d ∈ allNodes t ∧
        (((d.url ≠ [] ∨ d.node_type = "L0".data ∨ d.node_type = "L1".data) ∧
          d2 = (validate_node_shop (o d) p d).1) ∨
         (¬ (d.url ≠ [] ∨ d.node_type = "L0".data ∨ d.node_type = "L1".data) ∧ d2 = d))
  | .node dd cs => by
    intro d2 h2
    simp only [run_shop_tree, allNodes, List.mem_cons] at h2
    rcases h2 with h2 | h2
    · refine ⟨dd, by simp [allNodes], ?_⟩
      by_cases hcond : dd.url ≠ [] ∨ dd.node_type = "L0".data ∨ dd.node_type = "L1".data
      · left
        exact ⟨hcond, by simpa [if_pos hcond] using h2⟩
      · right
        exact ⟨hcond, by simpa [if_neg hcond] using h2⟩
    · obtain ⟨d, hd, hc⟩ := mem_run_shop_list o p cs d2 h2
      exact ⟨d, by simp [allNodes, List.mem_cons, hd], hc⟩

/-- Forest version of `mem_run_shop`. -/
theorem mem_run_shop_list (o : Node → Nat → AttemptOutcome) (p : PyStr) :
    ∀ (ts : List MenuTree) (d2 : Node), d2 ∈ allNodesList (run_shop_list o p ts) →
      ∃ d, d ∈ allNodesList ts ∧
        (((d.url ≠ [] ∨ d.node_type = "L0".data ∨ d.node_type = "L1".data) ∧
          d2 = (validate_node_shop (o d) p d).1) ∨
         (¬ (d.url ≠ [] ∨ d.node_type = "L0".data ∨ d.node_type = "L1".data) ∧ d2 = d))
  | [] => by intro d2 h2; exact absurd h2 (by simp [run_shop_list, allNodesList])
  | t :: ts => by
    intro d2 h2
    simp only [run_shop_list, allNodesList, List.mem_append] at h2
    rcases h2 with h2 | h2
    · obtain ⟨d, hd, hc⟩ := mem_run_shop o p t d2 h2
      exact ⟨d, by simp [allNodesList, List.mem_append, hd], hc⟩
    · obtain ⟨d, hd, hc⟩ := mem_run_shop_list o p ts d2 h2
      exact ⟨d, by simp [allNodesList, List.mem_append, hd], hc⟩

end

/-- Claim C3, counterexample: after a run in which the single node is
redirected (status 200, final URL canonicalizing differently), the node
ends with `link_validate = true` but a nonempty description, so
`link_validate == true` does not imply an empty `link_validate_desc`. -/
theorem c3_counterexample :
    run_gnb_tree (fun _ _ => .resp 200 "https://example.com/b".data)
      "https://example.com".data
      (.node ⟨"L1".data, "n".data, "/a".data, -1, false, []⟩ []) =
    .node ⟨"L1".data, "n".data, "/a".data, 200, true,
      "Redirected to https://example.com/b".data⟩ [] ∧
    ¬ ("Redirected to https://example.com/b".data = ([] : PyStr)) := by
  exact ⟨rfl, by decide⟩

/-- Claim C3, amended: starting from a tree whose nodes all carry the
unvalidated sentinel `link_validate = false`, after either run every node
with `link_validate = true` has `link_status = 200` and a description that
is either empty or `Redirected to <finalUrl>` — except that in the shop
variant an `L0` node without a url ends `link_validate = true` with
`link_status = -1` and the fixed description `L0 has no link by design`. -/
theorem c3_validate_true_inv (o : Node → Nat → AttemptOutcome) (p : PyStr) (t : MenuTree)
    (hinit : ∀ d ∈ allNodes t, d.link_validate = false) :
    (∀ d2 ∈ allNodes (run_gnb_tree o p t), d2.link_validate = true →
      d2.link_status = 200 ∧
      (d2.link_validate_desc = [] ∨ ∃ f, d2.link_validate_desc = redirDesc f)) ∧
    (∀ d2 ∈ allNodes (run_shop_tree o p t), d2.link_validate = true →
      (d2.link_status = 200 ∧
       (d2.link_validate_desc = [] ∨ ∃ f, d2.link_validate_desc = redirDesc f)) ∨
      (d2.link_status = -1 ∧ d2.link_validate_desc = "L0 has no link by design".data)) := by
  constructor
  · intro d2 hmem htrue
    obtain ⟨d, hd, hc⟩ := mem_run_gnb o p t d2 hmem
    rcases hc with ⟨hurl, heq⟩ | ⟨hurl, heq⟩
    · rw [heq] at htrue ⊢
      exact validate_gnb_true_inv (o d) p d htrue
    · rw [heq] at htrue
      rw [hinit d hd] at htrue
      cases htrue
  · intro d2 hmem htrue
    obtain ⟨d, hd, hc⟩ := mem_run_shop o p t d2 hmem
    rcases hc with ⟨hcond, heq⟩ | ⟨hcond, heq⟩
    · rw [heq] at htrue ⊢
      exact validate_shop_true_inv (o d) p d htrue
    · rw [heq] at htrue
      rw [hinit d hd] at htrue
      cases htrue

/-- Claim C3, witness: the amended invariant applied to a concrete
single-node tree in the unvalidated sentinel state. -/
theorem c3_validate_true_inv_witness :
    (∀ d ∈ allNodes (.node ⟨"L1".data, "n".data, "/a".data, -1, false, []⟩ []),
      d.link_validate = false) ∧
    ((∀ d2 ∈ allNodes (run_gnb_tree (fun _ _ => .resp 200 "https://example.com/b".data)
        "https://example.com".data
        (.node ⟨"L1".data, "n".data, "/a".data, -1, false, []⟩ [])), d2.link_validate = true →
      d2.link_status = 200 ∧
      (d2.link_validate_desc = [] ∨ ∃ f, d2.link_validate_desc = redirDesc f)) ∧
    (∀ d2 ∈ allNodes (run_shop_tree (fun _ _ => .resp 200 "https://example.com/b".data)
        "https://example.com".data
        (.node ⟨"L1".data, "n".data, "/a".data, -1, false, []⟩ [])), d2.link_validate = true →
      (d2.link_status = 200 ∧
       (d2.link_validate_desc = [] ∨ ∃ f, d2.link_validate_desc = redirDesc f)) ∨
      (d2.link_status = -1 ∧ d2.link_validate_desc = "L0 has no link by design".data))) :=
  ⟨by decide,
   c3_validate_true_inv (fun _ _ => .resp 200 "https://example.com/b".data)
     "https://example.com".data
     (.node ⟨"L1".data, "n".data, "/a".data, -1, false, []⟩ []) (by decide)⟩

/-- The 1-based progress indices `check_link_validity` enqueues with the
flattened nodes (`enumerate(all_nodes, 1)`). -/
def queue_items (total : Nat) : List Nat :=
  (List.range total).map (fun idx => idx + 1)

/-- Counting effect of updating one worker's slot. -/
theorem heldCount_update {w : Nat} (h : Fin w → Option Nat) (k : Fin w)
    (v : Option Nat) (j : Nat) :
    (Finset.univ.filter (fun x => Function.update h k v x = some j)).card +
      (if h k = some j then 1 else 0) =
    (Finset.univ.filter (fun x => h x = some j)).card +
      (if v = some j then 1 else 0) := by
  rw [Finset.card_filter, Finset.card_filter]
  have hg : ∀ x : Fin w, (if Function.update h k v x = some j then (1 : Nat) else 0) =
      Function.update (fun x => if h x = some j then (1 : Nat) else 0) k
        (if v = some j then 1 else 0) x := by
    intro x
    by_cases hx : x = k
    · subst hx; simp [Function.update_same]
    · simp [Function.update_noteq hx]
  rw [Finset.sum_congr rfl (fun x _ => hg x)]
  have e1 : (∑ x : Fin w, Function.update
        (fun x => if h x = some j then (1 : Nat) else 0) k
        (if v = some j then 1 else 0) x) =
      (if v = some j then 1 else 0) +
        ∑ x ∈ Finset.univ.erase k, (if h x = some j then (1 : Nat) else 0) := by
    rw [← Finset.add_sum_erase _ _ (Finset.mem_univ k)]
    congr 1
    · simp [Function.update_same]
    · apply Finset.sum_congr rfl
      intro x hx
      have hxk : x ≠ k := Finset.ne_of_mem_erase hx
      simp [Function.update_noteq hxk]
  have e2 : (∑ x : Fin w, (if h x = some j then (1 : Nat) else 0)) =
      (if h k = some j then 1 else 0) +
        ∑ x ∈ Finset.univ.erase k, (if h x = some j then (1 : Nat) else 0) :=
    (Finset.add_sum_erase _ _ (Finset.mem_univ k)).symm
  rw [e1, e2]
  omega

/-- Conservation: along any interleaving, every item is accounted for
exactly as often as it was enqueued — still queued, held by a worker, or
done. -/
theorem pool_conservation {w : Nat} {items : List Nat} {s : PoolState w}
    (h : PoolReach w (initPool w items) s) (j : Nat) :
    s.queue.count j + heldCount s j + s.done.count j = items.count j := by
  induction h with
  | refl => simp [initPool, heldCount]
  | tail hr hstep ih =>
    rename_i t u
    cases hstep with
    | take k i rest hfree hq =>
      have hupd := heldCount_update t.holding k (some i) j
      rw [hfree] at hupd
      have hqc : t.queue.count j = rest.count j + (if i = j then 1 else 0) := by
        rw [hq]
        by_cases hij : i = j <;> simp [List.count_cons, hij]
      have hih := ih
      rw [hqc] at hih
      have hz : (if (none : Option Nat) = some j then (1 : Nat) else 0) = 0 := by simp
      have hsj : (if (some i : Option Nat) = some j then (1 : Nat) else 0) =
          (if i = j then 1 else 0) := by
        by_cases hij : i = j <;> simp [hij]
      rw [hz, hsj] at hupd
      simp only [heldCount] at hih hupd ⊢
      omega
    | finish k i hheld =>
      have hupd := heldCount_update t.holding k none j
      rw [hheld] at hupd
      have hdc : (i :: t.done).count j = t.done.count j + (if i = j then 1 else 0) := by
        by_cases hij : i = j <;> simp [List.count_cons, hij]
      have hz : (if (none : Option Nat) = some j then (1 : Nat) else 0) = 0 := by simp
      have hsj : (if (some i : Option Nat) = some j then (1 : Nat) else 0) =
          (if i = j then 1 else 0) := by
        by_cases hij : i = j <;> simp [hij]
      rw [hsj, hz] at hupd
      simp only [heldCount] at ih hupd ⊢
      rw [hdc]
      omega

/-- With distinct items, no two workers ever hold the same item. -/
theorem pool_exclusive {w : Nat} {items : List Nat} {s : PoolState w}
    (h : PoolReach w (initPool w items) s) (hnd : items.Nodup)
    (k1 k2 : Fin w) (i : Nat)
    (h1 : s.holding k1 = some i) (h2 : s.holding k2 = some i) : k1 = k2 := by
  by_contra hne
  have hcons := pool_conservation h i
  have hcnt : items.count i ≤ 1 := List.nodup_iff_count_le_one.mp hnd i
  have h2le : 2 ≤ heldCount s i := by
    have hsub : ({k1, k2} : Finset (Fin w)) ⊆
        Finset.univ.filter (fun k => s.holding k = some i) := by
      intro x hx
      rcases Finset.mem_insert.mp hx with rfl | hx2
      · simp [Finset.mem_filter, h1]
      · rcases Finset.mem_singleton.mp hx2 with rfl
        simp [Finset.mem_filter, h2]
    have hcard := Finset.card_le_card hsub
    rwa [Finset.card_pair hne] at hcard
  omega

/-- At completion (queue drained, all workers idle), every enqueued item
was finished exactly once. -/
theorem pool_completion {w : Nat} {items : List Nat} {s : PoolState w}
    (h : PoolReach w (initPool w items) s) (hnd : items.Nodup)
    (hq : s.queue = []) (hidle : ∀ k, s.holding k = none)
    (i : Nat) (hi : i ∈ items) :
    s.done.count i = 1 := by
  have hcons := pool_conservation h i
  have hheld0 : heldCount s i = 0 := by
    rw [heldCount, Finset.card_eq_zero]
    apply Finset.filter_false_of_mem
    intro k _
    simp [hidle k]
  have hone : items.count i = 1 := List.count_eq_one_of_mem hnd hi
  rw [hq] at hcons
  simp only [List.count_nil] at hcons
  omega

/-- The enqueued indices are pairwise distinct. -/
theorem queue_items_nodup (total : Nat) : (queue_items total).Nodup :=
  (List.nodup_range total).map (fun a b hab => by omega)

/-- Claim C9: for the queue filled from the flattened tree, along every
interleaving of worker steps each item is handed out exactly once — the
counts of queued, held and done copies always add up to the single
enqueued copy, no two workers ever hold the same item, and when the queue
has drained and all workers are idle every item has been finished exactly
once. -/
theorem c9_queue_exactly_once (roots : List MenuTree) (w : Nat) (s : PoolState w)
    (hreach : PoolReach w
      (initPool w (queue_items (flattenListGnb roots).length)) s) :
    (∀ j, s.queue.count j + heldCount s j + s.done.count j =
      (queue_items (flattenListGnb roots).length).count j) ∧
    (∀ (k1 k2 : Fin w) (i : Nat),
      s.holding k1 = some i → s.holding k2 = some i → k1 = k2) ∧
    (s.queue = [] → (∀ k, s.holding k = none) →
      ∀ i ∈ queue_items (flattenListGnb roots).length, s.done.count i = 1) := by
  refine ⟨fun j => pool_conservation hreach j, ?_, ?_⟩
  · intro k1 k2 i h1 h2
    exact pool_exclusive hreach (queue_items_nodup _) k1 k2 i h1 h2
  · intro hq hidle i hi
    exact pool_completion hreach (queue_items_nodup _) hq hidle i hi

/-- Claim C9, witness: one worker of a two-worker pool takes and finishes
the single item of a one-node tree; at that point the item is done exactly
once. -/
theorem c9_queue_exactly_once_witness :
    (PoolState.mk []
      (Function.update (Function.update
        (fun _ => (none : Option Nat)) (0 : Fin 2) (some 1)) (0 : Fin 2) none)
      [1] : PoolState 2).done.count 1 = 1 := by
  have hq0 : (initPool 2 (queue_items (flattenListGnb
      [.node ⟨"L1".data, "n".data, "/a".data, -1, false, []⟩ []]).length)).queue =
      1 :: [] := rfl
  have hstep1 : PoolStep 2
      (initPool 2 (queue_items (flattenListGnb
        [.node ⟨"L1".data, "n".data, "/a".data, -1, false, []⟩ []]).length))
      ⟨[], Function.update (fun _ => (none : Option Nat)) (0 : Fin 2) (some 1), []⟩ :=
    PoolStep.take _ (0 : Fin 2) 1 [] rfl hq0
  have hheld : (PoolState.mk []
      (Function.update (fun _ => (none : Option Nat)) (0 : Fin 2) (some 1)) []
      : PoolState 2).holding (0 : Fin 2) = some 1 := by
    simp [Function.update_same]
  have hstep2 : PoolStep 2
      (⟨[], Function.update (fun _ => (none : Option Nat)) (0 : Fin 2) (some 1), []⟩
        : PoolState 2)
      ⟨[], Function.update (Function.update
        (fun _ => (none : Option Nat)) (0 : Fin 2) (some 1)) (0 : Fin 2) none, [1]⟩ :=
    PoolStep.finish _ (0 : Fin 2) 1 hheld
  have hreach : PoolReach 2
      (initPool 2 (queue_items (flattenListGnb
        [.node ⟨"L1".data, "n".data, "/a".data, -1, false, []⟩ []]).length))
      ⟨[], Function.update (Function.update
        (fun _ => (none : Option Nat)) (0 : Fin 2) (some 1)) (0 : Fin 2) none, [1]⟩ :=
    PoolReach.tail (PoolReach.tail (PoolReach.refl _) hstep1) hstep2
  have hidle : ∀ k : Fin 2,
      (⟨[], Function.update (Function.update
        (fun _ => (none : Option Nat)) (0 : Fin 2) (some 1)) (0 : Fin 2) none, [1]⟩
        : PoolState 2).holding k = none := by
    intro k
    by_cases hk : k = (0 : Fin 2)
    · subst hk; simp [Function.update_same]
    · simp [Function.update_noteq hk]
  exact (c9_queue_exactly_once
      [.node ⟨"L1".data, "n".data, "/a".data, -1, false, []⟩ []] 2 _ hreach).2.2
    rfl hidle 1 (by decide)



theorem uint32_le_iff (a b : UInt32) : a ≤ b ↔ a.toNat ≤ b.toNat := by
  rw [UInt32.le_def, BitVec.le_def]
  rfl

theorem char_eq_of_toNat_eq {c d : Char} (h : c.toNat = d.toNat) : c = d := by
  apply Char.ext
  apply UInt32.eq_of_toBitVec_eq
  exact BitVec.eq_of_toNat_eq h

theorem isUpper_iff (c : Char) : c.isUpper = true ↔ 65 ≤ c.toNat ∧ c.toNat ≤ 90 := by
  simp only [Char.isUpper, Bool.and_eq_true, decide_eq_true_eq, ge_iff_le, uint32_le_iff]
  constructor
  · intro h; exact ⟨h.1, h.2⟩
  · intro h; exact ⟨h.1, h.2⟩

theorem isLower_iff (c : Char) : c.isLower = true ↔ 97 ≤ c.toNat ∧ c.toNat ≤ 122 := by
  simp only [Char.isLower, Bool.and_eq_true, decide_eq_true_eq, ge_iff_le, uint32_le_iff]
  constructor
  · intro h; exact ⟨h.1, h.2⟩
  · intro h; exact ⟨h.1, h.2⟩

theorem isDigit_iff (c : Char) : c.isDigit = true ↔ 48 ≤ c.toNat ∧ c.toNat ≤ 57 := by
  simp only [Char.isDigit, Bool.and_eq_true, decide_eq_true_eq, ge_iff_le, uint32_le_iff]
  constructor
  · intro h; exact ⟨h.1, h.2⟩
  · intro h; exact ⟨h.1, h.2⟩

theorem char_beq_toNat (c d : Char) : (c == d) = true ↔ c.toNat = d.toNat := by
  constructor
  · intro h; rw [beq_iff_eq.mp h]
  · intro h; exact beq_iff_eq.mpr (char_eq_of_toNat_eq h)

theorem toNat_toLower (c : Char) :
    (Char.toLower c).toNat = if 65 ≤ c.toNat ∧ c.toNat ≤ 90 then c.toNat + 32 else c.toNat := by
  unfold Char.toLower
  by_cases h : 65 ≤ c.toNat ∧ c.toNat ≤ 90
  · rw [if_pos ⟨h.1, h.2⟩, if_pos h]
    have hv : (c.toNat + 32).isValidChar := by
      left
      omega
    rw [Char.ofNat, dif_pos hv]
    rfl
  · have h2 : ¬ (c.toNat ≥ 65 ∧ c.toNat ≤ 90) := fun hc => h ⟨hc.1, hc.2⟩
    rw [if_neg h2, if_neg h]

theorem toLower_of_not_upper {c : Char} (h : ¬ (65 ≤ c.toNat ∧ c.toNat ≤ 90)) :
    Char.toLower c = c := by
  unfold Char.toLower
  rw [if_neg (fun hc => h ⟨hc.1, hc.2⟩)]



theorem splitOnFirst_some {c : Char} : ∀ {l a b : PyStr}, splitOnFirst c l = some (a, b) →
    l = a ++ c :: b ∧ c ∉ a := by
  intro l
  induction l with
  | nil => intro a b h; simp [splitOnFirst] at h
  | cons x xs ih =>
    intro a b h
    by_cases hx : x = c
    · rw [splitOnFirst, if_pos hx] at h
      obtain ⟨rfl, rfl⟩ : [] = a ∧ xs = b := by
        have := Option.some.inj h
        exact ⟨congrArg Prod.fst this, congrArg Prod.snd this⟩
      subst hx
      exact ⟨rfl, by simp⟩
    · rw [splitOnFirst, if_neg hx] at h
      cases hsp : splitOnFirst c xs with
      | none => rw [hsp] at h; cases h
      | some p =>
        obtain ⟨a2, b2⟩ := p
        rw [hsp] at h
        obtain ⟨rfl, rfl⟩ : x :: a2 = a ∧ b2 = b := by
          have := Option.some.inj h
          exact ⟨congrArg Prod.fst this, congrArg Prod.snd this⟩
        obtain ⟨h1, h2⟩ := ih hsp
        constructor
        · rw [h1]; rfl
        · intro hc
          rcases List.mem_cons.mp hc with hc | hc
          · exact hx hc.symm
          · exact h2 hc

theorem splitOnFirst_none {c : Char} : ∀ {l : PyStr}, splitOnFirst c l = none → c ∉ l := by
  intro l
  induction l with
  | nil => intro _ hc; exact absurd hc (List.not_mem_nil c)
  | cons x xs ih =>
    intro h hc
    by_cases hx : x = c
    · rw [splitOnFirst, if_pos hx] at h; cases h
    · rw [splitOnFirst, if_neg hx] at h
      cases hsp : splitOnFirst c xs with
      | none =>
        rcases List.mem_cons.mp hc with hc2 | hc2
        · exact hx hc2.symm
        · exact ih hsp hc2
      | some p => rw [hsp] at h; cases h

theorem splitOnFirst_append {c : Char} : ∀ {a : PyStr} (b : PyStr), c ∉ a →
    splitOnFirst c (a ++ c :: b) = some (a, b) := by
  intro a
  induction a with
  | nil => intro b _; simp [splitOnFirst]
  | cons x xs ih =>
    intro b hna
    have hx : ¬ (x = c) := fun hc => hna (by rw [hc]; simp)
    rw [List.cons_append, splitOnFirst, if_neg hx,
      ih b (fun hc => hna (List.mem_cons_of_mem x hc))]

theorem splitOnFirst_not_mem {c : Char} : ∀ {l : PyStr}, c ∉ l → splitOnFirst c l = none := by
  intro l
  induction l with
  | nil => intro _; rfl
  | cons x xs ih =>
    intro h
    have hx : ¬ (x = c) := fun hc => h (by rw [hc]; simp)
    rw [splitOnFirst, if_neg hx, ih (fun hc => h (List.mem_cons_of_mem x hc))]

theorem splitAtFirst_of_not_mem {c : Char} {l : PyStr} (h : c ∉ l) :
    splitAtFirst c l = (l, []) := by
  rw [splitAtFirst, splitOnFirst_not_mem h]

theorem splitAtFirst_append {c : Char} {a : PyStr} (b : PyStr) (h : c ∉ a) :
    splitAtFirst c (a ++ c :: b) = (a, b) := by
  rw [splitAtFirst, splitOnFirst_append b h]

theorem takeWhile_append_all {p : Char → Bool} : ∀ {a : PyStr} {b : PyStr},
    (∀ x ∈ a, p x = true) → (b = [] ∨ ∃ d r, b = d :: r ∧ p d = false) →
    (a ++ b).takeWhile p = a ∧ (a ++ b).dropWhile p = b := by
  intro a
  induction a with
  | nil =>
    intro b _ hb
    rcases hb with rfl | ⟨d, r, rfl, hd⟩
    · simp
    · simp [List.takeWhile, List.dropWhile, hd]
  | cons x xs ih =>
    intro b ha hb
    have hx : p x = true := ha x (by simp)
    have := ih (fun y hy => ha y (List.mem_cons_of_mem x hy)) hb
    simp only [List.cons_append, List.takeWhile_cons, List.dropWhile_cons, hx, if_true]
    constructor
    · rw [this.1]
    · rw [this.2]

theorem dropWhile_idem {p : Char → Bool} : ∀ {l : PyStr},
    (l.dropWhile p).dropWhile p = l.dropWhile p := by
  intro l
  induction l with
  | nil => rfl
  | cons x xs ih =>
    by_cases hx : p x = true
    · simp only [List.dropWhile_cons, hx, if_true]
      exact ih
    · have hx2 : p x = false := by simp at hx; exact hx
      simp [List.dropWhile_cons, hx2]

theorem rstripSlash_subset {x : Char} {l : PyStr} (h : x ∈ rstripSlash l) : x ∈ l := by
  rw [rstripSlash] at h
  rw [List.mem_reverse] at h
  have := List.dropWhile_sublist (l := l.reverse) (p := fun c => c == '/')
  have h2 := this.mem h
  rwa [List.mem_reverse] at h2

theorem rstripSlash_idem (l : PyStr) : rstripSlash (rstripSlash l) = rstripSlash l := by
  rw [rstripSlash, rstripSlash, List.reverse_reverse, dropWhile_idem]

theorem dropWhile_append_last {p : Char → Bool} : ∀ (rl : PyStr) (x : Char),
    (rl ++ [x]).dropWhile p = [] ∨ ∃ t, (rl ++ [x]).dropWhile p = t ++ [x] := by
  intro rl
  induction rl with
  | nil =>
    intro x
    by_cases hx : p x = true
    · left; simp [List.dropWhile_cons, hx]
    · right
      refine ⟨[], ?_⟩
      have hx2 : p x = false := by simpa using hx
      simp [List.dropWhile_cons, hx2]
  | cons y rl ih =>
    intro x
    by_cases hy : p y = true
    · simp only [List.cons_append, List.dropWhile_cons, hy, if_true]
      exact ih x
    · right
      refine ⟨y :: rl, ?_⟩
      have hy2 : p y = false := by simpa using hy
      simp [List.dropWhile_cons, hy2]

theorem rstripSlash_head (x : Char) (xs : PyStr) :
    rstripSlash (x :: xs) = [] ∨ ∃ ys, rstripSlash (x :: xs) = x :: ys := by
  rw [rstripSlash, show (x :: xs).reverse = xs.reverse ++ [x] from by simp]
  rcases dropWhile_append_last xs.reverse x with h | ⟨t, h⟩
  · left; rw [h]; rfl
  · right; exact ⟨t.reverse, by rw [h]; simp⟩




theorem isSchemeChar_iff (c : Char) : isSchemeChar c = true ↔
    (65 ≤ c.toNat ∧ c.toNat ≤ 90) ∨ (97 ≤ c.toNat ∧ c.toNat ≤ 122) ∨
    (48 ≤ c.toNat ∧ c.toNat ≤ 57) ∨ c.toNat = 43 ∨ c.toNat = 45 ∨ c.toNat = 46 := by
  have h43 : ('+' : Char).toNat = 43 := rfl
  have h45 : ('-' : Char).toNat = 45 := rfl
  have h46 : ('.' : Char).toNat = 46 := rfl
  simp only [isSchemeChar, Char.isAlpha, Bool.or_eq_true, isUpper_iff, isLower_iff,
    isDigit_iff, char_beq_toNat, h43, h45, h46]
  tauto

theorem char_beq_false_of_toNat_ne {c d : Char} (h : c.toNat ≠ d.toNat) : (c == d) = false := by
  rw [Bool.eq_false_iff]
  intro hc
  exact h ((char_beq_toNat c d).mp hc)

theorem schemeChar_lower_facts {c : Char} (h : isSchemeChar c = true) :
    isSchemeChar (Char.toLower c) = true ∧
    Char.toLower (Char.toLower c) = Char.toLower c ∧
    (Char.toLower c).toNat ≠ 58 ∧ 32 < (Char.toLower c).toNat := by
  rw [isSchemeChar_iff] at h
  have ht := toNat_toLower c
  by_cases hup : 65 ≤ c.toNat ∧ c.toNat ≤ 90
  · rw [if_pos hup] at ht
    exact ⟨by rw [isSchemeChar_iff]; omega, toLower_of_not_upper (by omega), by omega, by omega⟩
  · rw [if_neg hup] at ht
    exact ⟨by rw [isSchemeChar_iff]; omega, toLower_of_not_upper (by omega), by omega, by omega⟩

theorem alpha_toLower {c : Char} (h : c.isAlpha = true) : (Char.toLower c).isAlpha = true := by
  simp only [Char.isAlpha, Bool.or_eq_true, isUpper_iff, isLower_iff] at h ⊢
  have ht := toNat_toLower c
  by_cases hup : 65 ≤ c.toNat ∧ c.toNat ≤ 90
  · rw [if_pos hup] at ht; omega
  · rw [if_neg hup] at ht; omega

theorem splitScheme_spec (l : PyStr) :
    (splitScheme l = ([], l)) ∨
    (∃ pre post, l = pre ++ ':' :: post ∧ ':' ∉ pre ∧
      (∃ c0 r0, pre = c0 :: r0 ∧ c0.isAlpha = true) ∧ pre.all isSchemeChar = true ∧
      splitScheme l = (pre.map Char.toLower, post)) := by
  cases hsp : splitOnFirst ':' l with
  | none => left; simp [splitScheme, hsp]
  | some p =>
    obtain ⟨pre, post⟩ := p
    obtain ⟨hl, hnotin⟩ := splitOnFirst_some hsp
    cases pre with
    | nil => left; simp [splitScheme, hsp]
    | cons c0 r0 =>
      by_cases hc : (c0.isAlpha && (c0 :: r0).all isSchemeChar) = true
      · right
        refine ⟨c0 :: r0, post, hl, hnotin, ⟨c0, r0, rfl, ((Bool.and_eq_true _ _).mp hc).1⟩,
          ((Bool.and_eq_true _ _).mp hc).2, ?_⟩
        simp only [splitScheme, hsp]
        rw [if_pos hc]
      · left
        simp only [splitScheme, hsp]
        rw [if_neg hc]

theorem splitScheme_slash (tail2 : PyStr) : splitScheme ('/' :: tail2) = ([], '/' :: tail2) := by
  cases hsp : splitOnFirst ':' ('/' :: tail2) with
  | none => simp [splitScheme, hsp]
  | some p =>
    obtain ⟨pre, post⟩ := p
    obtain ⟨hl, hni⟩ := splitOnFirst_some hsp
    cases pre with
    | nil =>
      exfalso
      simp only [List.nil_append] at hl
      exact absurd (List.cons.inj hl).1 (by decide)
    | cons c0 r0 =>
      have hc0 : c0 = '/' := ((List.cons.inj hl).1).symm
      subst hc0
      have halpha : ('/' : Char).isAlpha = false := by decide
      simp [splitScheme, hsp, halpha]

theorem splitScheme_reparse (sch rest : PyStr)
    (hcolon : ':' ∉ sch)
    (halpha : ∃ c0 r0, sch = c0 :: r0 ∧ c0.isAlpha = true)
    (hall : sch.all isSchemeChar = true)
    (hlow : sch.map Char.toLower = sch) :
    splitScheme (sch ++ ':' :: rest) = (sch, rest) := by
  obtain ⟨c0, r0, hsch, ha⟩ := halpha
  simp only [splitScheme, splitOnFirst_append rest hcolon]
  rw [hsch]
  simp only []
  rw [← hsch, if_pos (by rw [Bool.and_eq_true]; rw [hsch]; exact ⟨ha, by rw [← hsch]; exact hall⟩), hlow]

theorem splitNetloc_reparse {a b : PyStr} (ha : ∀ c ∈ a, isNetlocDelim c = false)
    (hb : b = [] ∨ ∃ d r, b = d :: r ∧ isNetlocDelim d = true) :
    splitNetloc (a ++ b) = (a, b) := by
  have hb2 : b = [] ∨ ∃ d r, b = d :: r ∧ (fun c => !(isNetlocDelim c)) d = false := by
    rcases hb with rfl | ⟨d, r, rfl, hd⟩
    · exact Or.inl rfl
    · exact Or.inr ⟨d, r, rfl, by simp [hd]⟩
  have hres := takeWhile_append_all (p := fun c => !(isNetlocDelim c)) (a := a) (b := b)
    (fun x hx => by simp [ha x hx]) hb2
  unfold splitNetloc
  rw [hres.1, hres.2]

theorem dropWhile_head_false {p : Char → Bool} : ∀ {l : PyStr} {d : Char} {r : PyStr},
    l.dropWhile p = d :: r → p d = false := by
  intro l
  induction l with
  | nil => intro d r h; cases h
  | cons x xs ih =>
    intro d r h
    by_cases hx : p x = true
    · rw [List.dropWhile_cons, if_pos hx] at h
      exact ih h
    · have hx2 : p x = false := by simpa using hx
      rw [List.dropWhile_cons, if_neg (by simp [hx2])] at h
      obtain ⟨rfl, rfl⟩ := List.cons.inj h
      exact hx2




theorem mem_takeWhile_pred {p : Char → Bool} : ∀ {l : PyStr} {x : Char},
    x ∈ l.takeWhile p → p x = true := by
  intro l
  induction l with
  | nil => intro x hx; simp at hx
  | cons y ys ih =>
    intro x hx
    by_cases hy : p y = true
    · rw [List.takeWhile_cons, if_pos hy] at hx
      rcases List.mem_cons.mp hx with rfl | hx
      · exact hy
      · exact ih hx
    · have hy2 : p y = false := by simpa using hy
      simp [List.takeWhile_cons, hy2] at hx

theorem splitparamsPy_reattach (t ps : PyStr)
    (hsemi : ';' ∉ ('/' :: t : PyStr)) (hslash : '/' ∉ ps) :
    splitparamsPy (('/' :: t) ++ ';' :: ps) = ('/' :: t, ps) := by
  have hmem : '/' ∈ (('/' :: t) ++ ';' :: ps : PyStr) := by simp
  have htr : t.reverse = t.reverse.takeWhile (fun c => !(c == '/')) ++
      t.reverse.dropWhile (fun c => !(c == '/')) :=
    (List.takeWhile_append_dropWhile _ _).symm
  have hsemit : ';' ∉ t := fun hc => hsemi (List.mem_cons_of_mem _ hc)
  have hPrev : (('/' :: t) ++ ';' :: ps : PyStr).reverse
      = (ps.reverse ++ ';' :: t.reverse.takeWhile (fun c => !(c == '/'))) ++
        (t.reverse.dropWhile (fun c => !(c == '/')) ++ ['/']) := by
    rw [List.reverse_append, List.reverse_cons]
    rw [show (('/' :: t : PyStr)).reverse = t.reverse ++ ['/'] from by simp]
    conv_lhs => rw [htr]
    simp only [List.append_assoc, List.singleton_append, List.cons_append, List.nil_append]
  have hall : ∀ x ∈ ps.reverse ++ ';' :: t.reverse.takeWhile (fun c => !(c == '/')),
      (fun c => !(c == '/')) x = true := by
    intro x hx
    rcases List.mem_append.mp hx with hx | hx
    · have hxp : x ∈ ps := List.mem_reverse.mp hx
      have hxs : ¬ (x = '/') := fun hc => hslash (hc ▸ hxp)
      simp [hxs]
    · rcases List.mem_cons.mp hx with rfl | hx
      · decide
      · exact mem_takeWhile_pred hx
  have hbcase : (t.reverse.dropWhile (fun c => !(c == '/')) ++ ['/'] : PyStr) = [] ∨
      ∃ d r, t.reverse.dropWhile (fun c => !(c == '/')) ++ ['/'] = d :: r ∧
        (fun c => !(c == '/')) d = false := by
    cases hgc : t.reverse.dropWhile (fun c => !(c == '/')) with
    | nil => right; exact ⟨'/', [], by simp [hgc], by decide⟩
    | cons d r =>
      right
      exact ⟨d, r ++ ['/'], by simp [hgc], dropWhile_head_false hgc⟩
  have hsplit := takeWhile_append_all (p := fun c => !(c == '/'))
    (a := ps.reverse ++ ';' :: t.reverse.takeWhile (fun c => !(c == '/')))
    (b := t.reverse.dropWhile (fun c => !(c == '/')) ++ ['/']) hall hbcase
  have hlast : ((('/' :: t) ++ ';' :: ps : PyStr).reverse.takeWhile
      (fun c => !(c == '/'))).reverse
      = (t.reverse.takeWhile (fun c => !(c == '/'))).reverse ++ ';' :: ps := by
    rw [hPrev, hsplit.1]
    rw [List.reverse_append, List.reverse_cons]
    simp only [List.reverse_reverse, List.append_assoc, List.cons_append, List.nil_append]
  have ht2 : t = (t.reverse.dropWhile (fun c => !(c == '/'))).reverse ++
      (t.reverse.takeWhile (fun c => !(c == '/'))).reverse := by
    conv_lhs => rw [← List.reverse_reverse t]
    conv_lhs => rw [htr]
    rw [List.reverse_append]
  have hP : (('/' :: t) ++ ';' :: ps : PyStr) =
      ('/' :: (t.reverse.dropWhile (fun c => !(c == '/'))).reverse) ++
      ((t.reverse.takeWhile (fun c => !(c == '/'))).reverse ++ ';' :: ps) := by
    conv_lhs => rw [show (('/' :: t) ++ ';' :: ps : PyStr) = '/' :: (t ++ ';' :: ps) from rfl]
    conv_lhs => rw [ht2]
    simp only [List.cons_append, List.append_assoc]
  have hsemie : ';' ∉ (t.reverse.takeWhile (fun c => !(c == '/'))).reverse := by
    intro hc
    rw [List.mem_reverse] at hc
    have hx : ';' ∈ t.reverse := (List.takeWhile_sublist _).mem hc
    exact hsemit (List.mem_reverse.mp hx)
  have hso : splitOnFirst ';'
      ((t.reverse.takeWhile (fun c => !(c == '/'))).reverse ++ ';' :: ps) =
      some ((t.reverse.takeWhile (fun c => !(c == '/'))).reverse, ps) :=
    splitOnFirst_append ps hsemie
  simp only [splitparamsPy, if_pos hmem, hlast, hso]
  rw [hP]
  rw [List.take_left' ?hlen]
  case hlen =>
    simp only [List.length_append, List.length_cons, List.length_reverse]
    omega
  conv_rhs => rw [ht2]
  simp only [List.cons_append, List.append_assoc]




/-- Characters that survive `removeUnsafeBytes`. -/
def noUnsafeList (l : PyStr) : Prop :=
  ∀ c ∈ l, c.toNat ≠ 9 ∧ c.toNat ≠ 13 ∧ c.toNat ≠ 10

theorem splitAtFirst_fst_not_mem (c : Char) (l : PyStr) : c ∉ (splitAtFirst c l).1 := by
  rw [splitAtFirst]
  cases hsp : splitOnFirst c l with
  | none => exact splitOnFirst_none hsp
  | some p =>
    obtain ⟨a, b⟩ := p
    exact (splitOnFirst_some hsp).2

theorem splitAtFirst_fst_subset {c x : Char} {l : PyStr}
    (h : x ∈ (splitAtFirst c l).1) : x ∈ l := by
  rw [splitAtFirst] at h
  cases hsp : splitOnFirst c l with
  | none => rw [hsp] at h; exact h
  | some p =>
    obtain ⟨a, b⟩ := p
    rw [hsp] at h
    rw [(splitOnFirst_some hsp).1]
    exact List.mem_append_left _ h

theorem splitAtFirst_snd_subset {c x : Char} {l : PyStr}
    (h : x ∈ (splitAtFirst c l).2) : x ∈ l := by
  rw [splitAtFirst] at h
  cases hsp : splitOnFirst c l with
  | none => rw [hsp] at h; cases h
  | some p =>
    obtain ⟨a, b⟩ := p
    rw [hsp] at h
    rw [(splitOnFirst_some hsp).1]
    exact List.mem_append_right _ (List.mem_cons_of_mem _ h)

theorem splitAtFirst_fst_head (c d : Char) (r : PyStr) :
    (splitAtFirst c (d :: r)).1 = [] ∨ ∃ q, (splitAtFirst c (d :: r)).1 = d :: q := by
  rw [splitAtFirst]
  cases hsp : splitOnFirst c (d :: r) with
  | none => right; exact ⟨r, rfl⟩
  | some p =>
    obtain ⟨a, b⟩ := p
    cases a with
    | nil => left; rfl
    | cons a0 a1 =>
      right
      have := (splitOnFirst_some hsp).1
      exact ⟨a1, by rw [(List.cons.inj this).1]⟩

theorem removeUnsafeBytes_eq_self {l : PyStr} (h : noUnsafeList l) :
    removeUnsafeBytes l = l := by
  rw [removeUnsafeBytes, List.filter_eq_self]
  intro a ha
  obtain ⟨h9, h13, h10⟩ := h a ha
  have e9 : (a == '\t') = false := char_beq_false_of_toNat_ne (by intro hc; exact h9 hc)
  have e13 : (a == '\r') = false := char_beq_false_of_toNat_ne (by intro hc; exact h13 hc)
  have e10 : (a == '\n') = false := char_beq_false_of_toNat_ne (by intro hc; exact h10 hc)
  simp [e9, e13, e10]

theorem lstrip_eq_self {x : Char} {xs : PyStr} (h : 32 < x.toNat) :
    lstripC0OrSpace (x :: xs) = x :: xs := by
  rw [lstripC0OrSpace, List.dropWhile_cons, if_neg]
  simp only [isC0OrSpace, decide_eq_true_eq]
  omega

theorem dropWhile_subset {p : Char → Bool} {x : Char} {l : PyStr}
    (h : x ∈ l.dropWhile p) : x ∈ l :=
  (List.dropWhile_sublist _).mem h

theorem takeWhile_subset' {p : Char → Bool} {x : Char} {l : PyStr}
    (h : x ∈ l.takeWhile p) : x ∈ l :=
  (List.takeWhile_sublist _).mem h

/-- Everything `urlsplitE` accepts, in a usable form: how the components
came out of the splitters, plus the bracket and ASCII checks. -/
theorem urlsplitE_ok_view {u : PyStr} {s : SplitResult} (h : urlsplitE u = .ok s) :
    ∃ url2 url3,
      splitScheme (removeUnsafeBytes (lstripC0OrSpace u)) = (s.scheme, url2) ∧
      ((url2.take 2 = ['/', '/'] ∧ splitNetloc (url2.drop 2) = (s.netloc, url3)) ∨
       (¬ url2.take 2 = ['/', '/'] ∧ s.netloc = [] ∧ url3 = url2)) ∧
      s.fragment = (splitAtFirst '#' url3).2 ∧
      s.path = (splitAtFirst '?' (splitAtFirst '#' url3).1).1 ∧
      s.query = (splitAtFirst '?' (splitAtFirst '#' url3).1).2 ∧
      ('[' ∉ s.netloc ∧ ']' ∉ s.netloc) ∧
      (s.netloc = [] ∨ s.netloc.all (fun c => c.toNat ≤ 127) = true) := by
  simp only [urlsplitE] at h
  by_cases htk : ((splitScheme (removeUnsafeBytes (lstripC0OrSpace u))).2.take 2 = ['/', '/'])
  · rw [if_pos htk] at h
    split_ifs at h with h1 h2 h3
    obtain rfl := (Except.ok.inj h).symm
    push_neg at h1 h3
    refine ⟨(splitScheme (removeUnsafeBytes (lstripC0OrSpace u))).2,
      (splitNetloc ((splitScheme (removeUnsafeBytes (lstripC0OrSpace u))).2.drop 2)).2,
      rfl, Or.inl ⟨htk, rfl⟩, rfl, rfl, rfl, ⟨h2, fun hc => h2 (h1.2 hc)⟩, ?_⟩
    by_cases hn : (splitNetloc ((splitScheme (removeUnsafeBytes (lstripC0OrSpace u))).2.drop 2)).1 = []
    · exact Or.inl hn
    · exact Or.inr (h3 hn)
  · rw [if_neg htk] at h
    split_ifs at h with h1 h2 h3
    obtain rfl := (Except.ok.inj h).symm
    refine ⟨(splitScheme (removeUnsafeBytes (lstripC0OrSpace u))).2,
      (splitScheme (removeUnsafeBytes (lstripC0OrSpace u))).2,
      rfl, Or.inr ⟨htk, rfl, rfl⟩, rfl, rfl, rfl, by simp, Or.inl rfl⟩




/-- Well-formedness facts about the output of a successful `urlsplitE`. -/
theorem urlsplit_wf {u : PyStr} {s : SplitResult} (h : urlsplitE u = .ok s) :
    (s.scheme = [] ∨ (∃ pre, s.scheme = pre.map Char.toLower ∧ ':' ∉ pre ∧
      (∃ c0 r0, pre = c0 :: r0 ∧ c0.isAlpha = true) ∧ pre.all isSchemeChar = true)) ∧
    (∀ c ∈ s.netloc, isNetlocDelim c = false) ∧
    ('[' ∉ s.netloc ∧ ']' ∉ s.netloc) ∧
    (s.netloc = [] ∨ s.netloc.all (fun c => c.toNat ≤ 127) = true) ∧
    ('#' ∉ s.path ∧ '?' ∉ s.path) ∧ '#' ∉ s.query ∧
    (s.netloc ≠ [] → (s.path = [] ∨ ∃ r, s.path = '/' :: r)) ∧
    noUnsafeList s.scheme ∧ noUnsafeList s.netloc ∧ noUnsafeList s.path ∧
    noUnsafeList s.query ∧ noUnsafeList s.fragment := by
  obtain ⟨url2, url3, hsch, hnet, hfrag, hpath, hq, hbr, hascii⟩ := urlsplitE_ok_view h
  have hu1 : noUnsafeList (removeUnsafeBytes (lstripC0OrSpace u)) := by
    intro c hc
    rw [removeUnsafeBytes] at hc
    have hpred := List.of_mem_filter hc
    simp only [Bool.not_eq_true', Bool.or_eq_false_iff] at hpred
    obtain ⟨⟨e9, e13⟩, e10⟩ := hpred
    refine ⟨?_, ?_, ?_⟩
    · intro hc2
      rw [(char_beq_toNat c '\t').mpr hc2] at e9
      cases e9
    · intro hc2
      rw [(char_beq_toNat c '\r').mpr hc2] at e13
      cases e13
    · intro hc2
      rw [(char_beq_toNat c '\n').mpr hc2] at e10
      cases e10
  have hschemes := splitScheme_spec (removeUnsafeBytes (lstripC0OrSpace u))
  have hscheme_shape : s.scheme = [] ∨ (∃ pre, s.scheme = pre.map Char.toLower ∧ ':' ∉ pre ∧
      (∃ c0 r0, pre = c0 :: r0 ∧ c0.isAlpha = true) ∧ pre.all isSchemeChar = true) := by
    rcases hschemes with heq | ⟨pre, post, hsplit, hni, halpha, hall, heq⟩
    · rw [heq] at hsch
      exact Or.inl (congrArg Prod.fst hsch).symm
    · rw [heq] at hsch
      exact Or.inr ⟨pre, (congrArg Prod.fst hsch).symm, hni, halpha, hall⟩
  have hu2 : noUnsafeList url2 := by
    rcases hschemes with heq | ⟨pre, post, hsplit, hni, halpha, hall, heq⟩
    · rw [heq] at hsch
      have h2 : url2 = removeUnsafeBytes (lstripC0OrSpace u) := (congrArg Prod.snd hsch).symm
      rw [h2]; exact hu1
    · rw [heq] at hsch
      have h2 : url2 = post := (congrArg Prod.snd hsch).symm
      intro c hc
      exact hu1 c (by rw [hsplit]; rw [h2] at hc
                      exact List.mem_append_right _ (List.mem_cons_of_mem _ hc))
  have hunsafe_scheme : noUnsafeList s.scheme := by
    rcases hscheme_shape with heq | ⟨pre, heq, hni, halpha, hall⟩
    · rw [heq]; intro c hc; cases hc
    · rw [heq]
      intro c hc
      obtain ⟨c0, hc0, rfl⟩ := List.mem_map.mp hc
      have hsc : isSchemeChar c0 = true := by
        rw [List.all_eq_true] at hall
        exact hall c0 hc0
      have := (schemeChar_lower_facts hsc).2.2.2
      exact ⟨by omega, by omega, by omega⟩
  -- netloc and url3 facts
  have hnetfacts : (∀ c ∈ s.netloc, isNetlocDelim c = false) ∧ noUnsafeList url3 ∧
      noUnsafeList s.netloc ∧
      (s.netloc ≠ [] → (url3 = [] ∨ ∃ d r, url3 = d :: r ∧ isNetlocDelim d = true)) := by
    rcases hnet with ⟨htk, hnl⟩ | ⟨htk, hnl, hurl3⟩
    · have hn1 : s.netloc = (url2.drop 2).takeWhile (fun c => !(isNetlocDelim c)) := by
        have := congrArg Prod.fst hnl
        simpa [splitNetloc] using this.symm
      have hn2 : url3 = (url2.drop 2).dropWhile (fun c => !(isNetlocDelim c)) := by
        have := congrArg Prod.snd hnl
        simpa [splitNetloc] using this.symm
      refine ⟨?_, ?_, ?_, ?_⟩
      · intro c hc
        rw [hn1] at hc
        have := mem_takeWhile_pred hc
        simpa using this
      · intro c hc
        rw [hn2] at hc
        exact hu2 c (List.mem_of_mem_drop (dropWhile_subset hc))
      · intro c hc
        rw [hn1] at hc
        exact hu2 c (List.mem_of_mem_drop (takeWhile_subset' hc))
      · intro _
        rw [hn2]
        cases hd : (url2.drop 2).dropWhile (fun c => !(isNetlocDelim c)) with
        | nil => exact Or.inl rfl
        | cons d r =>
          right
          refine ⟨d, r, rfl, ?_⟩
          have := dropWhile_head_false hd
          simpa using this
    · refine ⟨?_, ?_, ?_, ?_⟩
      · intro c hc; rw [hnl] at hc; cases hc
      · rw [hurl3]; exact hu2
      · intro c hc; rw [hnl] at hc; cases hc
      · intro hne; exact absurd hnl hne
  -- path, query, fragment facts
  have hpath_hash : '#' ∉ s.path := by
    rw [hpath]
    intro hc
    exact splitAtFirst_fst_not_mem '#' url3 (splitAtFirst_fst_subset hc)
  have hpath_q : '?' ∉ s.path := by
    rw [hpath]
    exact splitAtFirst_fst_not_mem '?' _
  have hq_hash : '#' ∉ s.query := by
    rw [hq]
    intro hc
    exact splitAtFirst_fst_not_mem '#' url3 (splitAtFirst_snd_subset hc)
  have hunsafe_path : noUnsafeList s.path := by
    rw [hpath]
    intro c hc
    exact hnetfacts.2.1 c (splitAtFirst_fst_subset (splitAtFirst_fst_subset hc))
  have hunsafe_q : noUnsafeList s.query := by
    rw [hq]
    intro c hc
    exact hnetfacts.2.1 c (splitAtFirst_fst_subset (splitAtFirst_snd_subset hc))
  have hunsafe_f : noUnsafeList s.fragment := by
    rw [hfrag]
    intro c hc
    exact hnetfacts.2.1 c (splitAtFirst_snd_subset hc)
  have hpath_slash : s.netloc ≠ [] → (s.path = [] ∨ ∃ r, s.path = '/' :: r) := by
    intro hne
    rcases hnetfacts.2.2.2 hne with h3 | ⟨d, r, h3, hd⟩
    · left
      rw [hpath, h3]
      rfl
    · rcases splitAtFirst_fst_head '#' d r with hh | ⟨q1, hh⟩
      · left
        rw [hpath, h3, hh]
        rfl
      · rcases splitAtFirst_fst_head '?' d q1 with hh2 | ⟨q2, hh2⟩
        · left
          rw [hpath, h3, hh, hh2]
        · right
          have hdp : s.path = d :: q2 := by rw [hpath, h3, hh, hh2]
          have hdd : d = '/' := by
            have hmem : d ∈ s.path := by rw [hdp]; simp
            simp only [isNetlocDelim, Bool.or_eq_true, beq_iff_eq] at hd
            rcases hd with (hd | hd) | hd
            · exact hd
            · exact absurd (hd ▸ hmem) hpath_q
            · exact absurd (hd ▸ hmem) hpath_hash
          exact ⟨q2, by rw [hdp, hdd]⟩
  exact ⟨hscheme_shape, hnetfacts.1, hbr, hascii, ⟨hpath_hash, hpath_q⟩, hq_hash,
    hpath_slash, hunsafe_scheme, hnetfacts.2.2.1, hunsafe_path, hunsafe_q, hunsafe_f⟩




/-- Forward specification of `_splitparams`: either nothing was split off,
or the two pieces reassemble with a `;` and the params carry no slash. -/
theorem splitparamsPy_spec (P : PyStr) :
    (splitparamsPy P = (P, [])) ∨
    (P = (splitparamsPy P).1 ++ ';' :: (splitparamsPy P).2 ∧ '/' ∉ (splitparamsPy P).2) := by
  by_cases hs : '/' ∈ P
  · rw [splitparamsPy, if_pos hs]
    cases hso : splitOnFirst ';' ((P.reverse.takeWhile (fun c => !(c == '/'))).reverse) with
    | none => left; simp only [hso]
    | some p =>
      obtain ⟨a, b⟩ := p
      right
      simp only [hso]
      obtain ⟨hseg, hnia⟩ := splitOnFirst_some hso
      have hsuffix : P = ((P.reverse.dropWhile (fun c => !(c == '/'))).reverse) ++
          ((P.reverse.takeWhile (fun c => !(c == '/'))).reverse) := by
        conv_lhs => rw [← List.reverse_reverse P]
        conv_lhs => rw [← List.takeWhile_append_dropWhile (fun c => !(c == '/')) P.reverse]
        rw [List.reverse_append]
      have hb : '/' ∉ b := by
        intro hc
        have hmem : '/' ∈ (P.reverse.takeWhile (fun c => !(c == '/'))).reverse := by
          rw [hseg]
          exact List.mem_append_right _ (List.mem_cons_of_mem _ hc)
        rw [List.mem_reverse] at hmem
        have := mem_takeWhile_pred hmem
        simp at this
      have hstem : ∀ (A B : PyStr), P = A ++ B → P.take (P.length - B.length) = A := by
        intro A B hPAB
        rw [hPAB, List.length_append,
          show A.length + B.length - B.length = A.length from by omega]
        exact List.take_left A B
      constructor
      · rw [hstem ((P.reverse.dropWhile (fun c => !(c == '/'))).reverse)
            ((P.reverse.takeWhile (fun c => !(c == '/'))).reverse) hsuffix]
        conv_lhs => rw [hsuffix]
        rw [hseg]
        simp only [List.append_assoc, List.cons_append]
      · exact hb
  · rw [splitparamsPy, if_neg hs]
    cases hso : splitOnFirst ';' P with
    | none => left; rw [splitAtFirst, hso]
    | some p =>
      obtain ⟨a, b⟩ := p
      right
      obtain ⟨hseg, hnia⟩ := splitOnFirst_some hso
      rw [splitAtFirst, hso]
      refine ⟨hseg, ?_⟩
      intro hc
      exact hs (by rw [hseg]; exact List.mem_append_right _ (List.mem_cons_of_mem _ hc))

/-- Elimination view of a successful `urlparseE`. -/
theorem urlparseE_ok_view {u : PyStr} {p : ParseResult} (h : urlparseE u = .ok p) :
    ∃ s, urlsplitE u = .ok s ∧ p.scheme = s.scheme ∧ p.netloc = s.netloc ∧
      p.query = s.query ∧ p.fragment = s.fragment ∧
      ((¬ (s.scheme ∈ usesParams ∧ ';' ∈ s.path) ∧ p.path = s.path ∧ p.params = []) ∨
       ((s.scheme ∈ usesParams ∧ ';' ∈ s.path) ∧
        p.path = (splitparamsPy s.path).1 ∧ p.params = (splitparamsPy s.path).2)) := by
  rw [urlparseE] at h
  cases hs : urlsplitE u with
  | error e => rw [hs] at h; cases h
  | ok s =>
    rw [hs] at h
    simp only [bind, Except.bind] at h
    by_cases hg : (s.scheme ∈ usesParams ∧ ';' ∈ s.path)
    · rw [if_pos hg] at h
      obtain rfl := (Except.ok.inj h).symm
      exact ⟨s, rfl, rfl, rfl, rfl, rfl, Or.inr ⟨hg, rfl, rfl⟩⟩
    · rw [if_neg hg] at h
      obtain rfl := (Except.ok.inj h).symm
      exact ⟨s, rfl, rfl, rfl, rfl, rfl, Or.inl ⟨hg, rfl, rfl⟩⟩




/-- Shape of `urlunsplit` when the netloc is nonempty. -/
theorem urlunsplit_shape (scheme netloc C query fragment : PyStr) (hnet : netloc ≠ []) :
    urlunsplit scheme netloc C query fragment =
      (if scheme ≠ [] then scheme ++ [':'] else []) ++
      ('/' :: '/' :: (netloc ++
        ((if C ≠ [] ∧ C.take 1 ≠ ['/'] then '/' :: C else C) ++
         ((if query ≠ [] then '?' :: query else []) ++
          (if fragment ≠ [] then '#' :: fragment else []))))) := by
  rw [urlunsplit]
  rw [if_pos (Or.inl hnet)]
  split_ifs <;> simp [List.append_assoc]

/-- The lowercased scheme produced by `splitScheme` satisfies everything a
reparse needs. -/
theorem scheme_lower_wf {pre : PyStr} (halpha : ∃ c0 r0, pre = c0 :: r0 ∧ c0.isAlpha = true)
    (hall : pre.all isSchemeChar = true) :
    ':' ∉ pre.map Char.toLower ∧
    (∃ c0 r0, pre.map Char.toLower = c0 :: r0 ∧ c0.isAlpha = true) ∧
    (pre.map Char.toLower).all isSchemeChar = true ∧
    (pre.map Char.toLower).map Char.toLower = pre.map Char.toLower ∧
    (∀ c ∈ pre.map Char.toLower, 32 < c.toNat) := by
  rw [List.all_eq_true] at hall
  refine ⟨?_, ?_, ?_, ?_, ?_⟩
  · intro hc
    obtain ⟨c0, hc0, he⟩ := List.mem_map.mp hc
    have hf := (schemeChar_lower_facts (hall c0 hc0)).2.2.1
    rw [he] at hf
    exact hf rfl
  · obtain ⟨c0, r0, rfl, ha⟩ := halpha
    exact ⟨Char.toLower c0, r0.map Char.toLower, by simp, alpha_toLower ha⟩
  · rw [List.all_eq_true]
    intro c hc
    obtain ⟨c0, hc0, rfl⟩ := List.mem_map.mp hc
    exact (schemeChar_lower_facts (hall c0 hc0)).1
  · rw [List.map_map]
    apply List.map_congr_left
    intro c0 hc0
    exact (schemeChar_lower_facts (hall c0 hc0)).2.1
  · intro c hc
    obtain ⟨c0, hc0, rfl⟩ := List.mem_map.mp hc
    exact (schemeChar_lower_facts (hall c0 hc0)).2.2.2




/-- Reparsing the string `urlunsplit` assembles from well-formed components
(with a nonempty netloc) recovers those components. -/
theorem urlsplit_reparse (scheme netloc CC query fragment : PyStr)
    (hschCase : scheme = [] ∨ (':' ∉ scheme ∧
      (∃ c0 r0, scheme = c0 :: r0 ∧ c0.isAlpha = true) ∧
      scheme.all isSchemeChar = true ∧ scheme.map Char.toLower = scheme ∧
      ∀ c ∈ scheme, 32 < c.toNat))
    (hnet : netloc ≠ [])
    (hnetD : ∀ c ∈ netloc, isNetlocDelim c = false)
    (hbr : '[' ∉ netloc ∧ ']' ∉ netloc)
    (hascii : netloc.all (fun c => c.toNat ≤ 127) = true)
    (hCC : CC = [] ∨ ∃ r, CC = '/' :: r)
    (hCCh : '#' ∉ CC) (hCCq : '?' ∉ CC)
    (hqh : '#' ∉ query)
    (hunN : noUnsafeList netloc) (hunC : noUnsafeList CC)
    (hunQ : noUnsafeList query) (hunF : noUnsafeList fragment) :
    urlsplitE ((if scheme ≠ [] then scheme ++ [':'] else []) ++
      ('/' :: '/' :: (netloc ++ (CC ++ ((if query ≠ [] then '?' :: query else []) ++
        (if fragment ≠ [] then '#' :: fragment else [])))))) =
      .ok ⟨scheme, netloc, CC, query, fragment⟩ := by
  have hrest2 : (CC ++ ((if query ≠ [] then '?' :: query else []) ++
      (if fragment ≠ [] then '#' :: fragment else [])) : PyStr) = [] ∨
      ∃ d r, (CC ++ ((if query ≠ [] then '?' :: query else []) ++
        (if fragment ≠ [] then '#' :: fragment else [])) : PyStr) = d :: r ∧
        isNetlocDelim d = true := by
    rcases hCC with rfl | ⟨r, rfl⟩
    · by_cases hq : query ≠ []
      · right
        refine ⟨'?', query ++ (if fragment ≠ [] then '#' :: fragment else []), ?_, by decide⟩
        simp [if_pos hq]
      · by_cases hf : fragment ≠ []
        · right
          refine ⟨'#', fragment, ?_, by decide⟩
          simp [if_pos hf, if_neg hq]
        · left
          simp [if_neg hq, if_neg hf]
    · right
      refine ⟨'/', r ++ ((if query ≠ [] then '?' :: query else []) ++
        (if fragment ≠ [] then '#' :: fragment else [])), ?_, by decide⟩
      simp
  -- the whole assembled string, after the optional scheme prefix
  have hsplitN := splitNetloc_reparse (a := netloc)
    (b := CC ++ ((if query ≠ [] then '?' :: query else []) ++
      (if fragment ≠ [] then '#' :: fragment else []))) hnetD hrest2
  -- fragment and query splits
  have hfq : splitAtFirst '?' ((splitAtFirst '#' (CC ++
      ((if query ≠ [] then '?' :: query else []) ++
       (if fragment ≠ [] then '#' :: fragment else [])))).1) = (CC, query) ∧
      (splitAtFirst '#' (CC ++
        ((if query ≠ [] then '?' :: query else []) ++
         (if fragment ≠ [] then '#' :: fragment else [])))).2 = fragment := by
    by_cases hf : fragment = []
    · subst hf
      simp only [show (if ([] : PyStr) ≠ [] then '#' :: ([] : PyStr) else []) = []
        from if_neg (not_not_intro rfl), List.append_nil]
      by_cases hq : query = []
      · subst hq
        simp only [show (if ([] : PyStr) ≠ [] then '?' :: ([] : PyStr) else []) = []
          from if_neg (not_not_intro rfl), List.append_nil]
        rw [splitAtFirst_of_not_mem hCCh]
        exact ⟨by rw [splitAtFirst_of_not_mem hCCq], rfl⟩
      · simp only [if_pos hq]
        have hnm : '#' ∉ CC ++ '?' :: query := by
          intro hc
          rcases List.mem_append.mp hc with hc | hc
          · exact hCCh hc
          · rcases List.mem_cons.mp hc with hc | hc
            · cases hc
            · exact hqh hc
        rw [splitAtFirst_of_not_mem hnm]
        exact ⟨by rw [splitAtFirst_append query hCCq], rfl⟩
    · simp only [if_pos hf]
      by_cases hq : query = []
      · subst hq
        simp only [show (if ([] : PyStr) ≠ [] then '?' :: ([] : PyStr) else []) = []
          from if_neg (not_not_intro rfl), List.nil_append]
        rw [splitAtFirst_append fragment hCCh]
        exact ⟨by rw [splitAtFirst_of_not_mem hCCq], rfl⟩
      · simp only [if_pos hq]
        have hshape : CC ++ ('?' :: query ++ '#' :: fragment) =
            (CC ++ '?' :: query) ++ '#' :: fragment := by
          simp [List.append_assoc]
        rw [hshape]
        have hnm : '#' ∉ CC ++ '?' :: query := by
          intro hc
          rcases List.mem_append.mp hc with hc | hc
          · exact hCCh hc
          · rcases List.mem_cons.mp hc with hc | hc
            · cases hc
            · exact hqh hc
        rw [splitAtFirst_append fragment hnm]
        exact ⟨by rw [splitAtFirst_append query hCCq], rfl⟩
  -- now assemble, by cases on the scheme
  rcases hschCase with rfl | ⟨hcol, halpha, hall, hlow, hgt⟩
  · rw [show (if ([] : PyStr) ≠ [] then ([] : PyStr) ++ [':'] else []) = []
      from if_neg (not_not_intro rfl), List.nil_append]
    rw [urlsplitE]
    rw [lstrip_eq_self (x := '/') (by decide)]
    rw [removeUnsafeBytes_eq_self ?hsafe]
    case hsafe =>
      intro c hc
      rcases List.mem_cons.mp hc with rfl | hc
      · exact ⟨by decide, by decide, by decide⟩
      rcases List.mem_cons.mp hc with rfl | hc
      · exact ⟨by decide, by decide, by decide⟩
      rcases List.mem_append.mp hc with hc | hc
      · exact hunN c hc
      rcases List.mem_append.mp hc with hc | hc
      · exact hunC c hc
      rcases List.mem_append.mp hc with hc | hc
      · by_cases hq : query ≠ []
        · rw [if_pos hq] at hc
          rcases List.mem_cons.mp hc with rfl | hc
          · exact ⟨by decide, by decide, by decide⟩
          · exact hunQ c hc
        · rw [if_neg hq] at hc
          cases hc
      · by_cases hf : fragment ≠ []
        · rw [if_pos hf] at hc
          rcases List.mem_cons.mp hc with rfl | hc
          · exact ⟨by decide, by decide, by decide⟩
          · exact hunF c hc
        · rw [if_neg hf] at hc
          cases hc
    rw [splitScheme_slash]
    have htake : ∀ X : PyStr, List.take 2 ('/' :: '/' :: X) = ['/', '/'] := fun X => rfl
    have hdrop : ∀ X : PyStr, List.drop 2 ('/' :: '/' :: X) = X := fun X => rfl
    rw [htake, if_pos rfl, hdrop, hsplitN]
    simp only []
    rw [if_neg (by simp [hbr.1, hbr.2]), if_neg (by simp [hbr.1]),
      if_neg (by simp [hascii])]
    rw [hfq.1, hfq.2]
  · obtain ⟨c0, r0, hs0, ha0⟩ := halpha
    have hsne : scheme ≠ [] := by rw [hs0]; exact List.cons_ne_nil _ _
    rw [if_pos hsne, List.append_assoc, List.singleton_append]
    rw [urlsplitE]
    have e1 : lstripC0OrSpace (scheme ++ ':' :: ('/' :: '/' :: (netloc ++
        (CC ++ ((if query ≠ [] then '?' :: query else []) ++
          (if fragment ≠ [] then '#' :: fragment else [])))))) =
        scheme ++ ':' :: ('/' :: '/' :: (netloc ++
        (CC ++ ((if query ≠ [] then '?' :: query else []) ++
          (if fragment ≠ [] then '#' :: fragment else []))))) := by
      rw [hs0, List.cons_append]
      exact lstrip_eq_self (hgt c0 (by rw [hs0]; exact List.mem_cons_self _ _))
    rw [e1]
    rw [removeUnsafeBytes_eq_self ?hsafe2]
    case hsafe2 =>
      intro c hc
      rcases List.mem_append.mp hc with hc | hc
      · have h32 := hgt c hc
        exact ⟨by omega, by omega, by omega⟩
      rcases List.mem_cons.mp hc with rfl | hc
      · exact ⟨by decide, by decide, by decide⟩
      rcases List.mem_cons.mp hc with rfl | hc
      · exact ⟨by decide, by decide, by decide⟩
      rcases List.mem_cons.mp hc with rfl | hc
      · exact ⟨by decide, by decide, by decide⟩
      rcases List.mem_append.mp hc with hc | hc
      · exact hunN c hc
      rcases List.mem_append.mp hc with hc | hc
      · exact hunC c hc
      rcases List.mem_append.mp hc with hc | hc
      · by_cases hq : query ≠ []
        · rw [if_pos hq] at hc
          rcases List.mem_cons.mp hc with rfl | hc
          · exact ⟨by decide, by decide, by decide⟩
          · exact hunQ c hc
        · rw [if_neg hq] at hc
          cases hc
      · by_cases hf : fragment ≠ []
        · rw [if_pos hf] at hc
          rcases List.mem_cons.mp hc with rfl | hc
          · exact ⟨by decide, by decide, by decide⟩
          · exact hunF c hc
        · rw [if_neg hf] at hc
          cases hc
    rw [splitScheme_reparse scheme _ hcol ⟨c0, r0, hs0, ha0⟩ hall hlow]
    have htake : ∀ X : PyStr, List.take 2 ('/' :: '/' :: X) = ['/', '/'] := fun X => rfl
    have hdrop : ∀ X : PyStr, List.drop 2 ('/' :: '/' :: X) = X := fun X => rfl
    rw [htake, if_pos rfl, hdrop, hsplitN]
    rw [if_neg (by simp [hbr.1, hbr.2]), if_neg (by simp [hbr.1]),
      if_neg (by simp [hascii])]
    simp only []
    rw [hfq.1, hfq.2]

/-- A URL reassembled by `standardize_url` from components whose path is
already slash-stripped and semicolon-free (params split off) is a fixed
point of `standardize_url`. -/
theorem standardize_fix (scheme netloc path params query fragment : PyStr)
    (hsch : scheme = [] ∨ (':' ∉ scheme ∧
      (∃ c0 r0, scheme = c0 :: r0 ∧ c0.isAlpha = true) ∧
      scheme.all isSchemeChar = true ∧ scheme.map Char.toLower = scheme ∧
      ∀ c ∈ scheme, 32 < c.toNat))
    (husep : params ≠ [] → scheme ∈ usesParams)
    (hnet : netloc ≠ [])
    (hnetD : ∀ c ∈ netloc, isNetlocDelim c = false)
    (hbr : '[' ∉ netloc ∧ ']' ∉ netloc)
    (hascii : netloc.all (fun c => c.toNat ≤ 127) = true)
    (hpath : path = [] ∨ ∃ t, path = '/' :: t)
    (hsemi : ';' ∉ path)
    (hph : '#' ∉ path) (hpq : '?' ∉ path)
    (hparh : '#' ∉ params) (hparq : '?' ∉ params) (hpars : '/' ∉ params)
    (hqh : '#' ∉ query)
    (hunN : noUnsafeList netloc) (hunP : noUnsafeList path)
    (hunPar : noUnsafeList params) (hunQ : noUnsafeList query)
    (hunF : noUnsafeList fragment) :
    standardize_url (urlunparse ⟨scheme, netloc, rstripSlash path, params, query, fragment⟩) =
      .ok (urlunparse ⟨scheme, netloc, rstripSlash path, params, query, fragment⟩) := by
  have hCC0sub : ∀ c ∈ rstripSlash path, c ∈ path := fun c hc => rstripSlash_subset hc
  have hCC0semi : ';' ∉ rstripSlash path := fun hc => hsemi (hCC0sub _ hc)
  have hCC0h : '#' ∉ rstripSlash path := fun hc => hph (hCC0sub _ hc)
  have hCC0q : '?' ∉ rstripSlash path := fun hc => hpq (hCC0sub _ hc)
  have hunCC0 : noUnsafeList (rstripSlash path) := fun c hc => hunP c (hCC0sub c hc)
  have hCC0shape : rstripSlash path = [] ∨ ∃ ys, rstripSlash path = '/' :: ys := by
    rcases hpath with rfl | ⟨t, rfl⟩
    · left; rfl
    · exact rstripSlash_head '/' t
  by_cases hpar : params = []
  · subst hpar
    have hU : urlunparse ⟨scheme, netloc, rstripSlash path, [], query, fragment⟩ =
        urlunsplit scheme netloc (rstripSlash path) query fragment := by
      simp only [urlunparse]
      rw [if_neg (not_not_intro rfl)]
    rw [hU]
    have hD : (if rstripSlash path ≠ [] ∧ (rstripSlash path).take 1 ≠ ['/']
        then '/' :: rstripSlash path else rstripSlash path) = rstripSlash path := by
      rcases hCC0shape with hc | ⟨ys, hc⟩
      · rw [if_neg]
        intro h2
        exact h2.1 hc
      · rw [if_neg]
        intro h2
        rw [hc] at h2
        exact h2.2 rfl
    have hshape := urlunsplit_shape scheme netloc (rstripSlash path) query fragment hnet
    rw [hD] at hshape
    have hsplit : urlsplitE (urlunsplit scheme netloc (rstripSlash path) query fragment) =
        .ok ⟨scheme, netloc, rstripSlash path, query, fragment⟩ := by
      rw [hshape]
      exact urlsplit_reparse scheme netloc (rstripSlash path) query fragment hsch hnet
        hnetD hbr hascii hCC0shape hCC0h hCC0q hqh hunN hunCC0 hunQ hunF
    have hparse : urlparseE (urlunsplit scheme netloc (rstripSlash path) query fragment) =
        .ok ⟨scheme, netloc, rstripSlash path, [], query, fragment⟩ := by
      rw [urlparseE, hsplit]
      simp only [bind, Except.bind]
      rw [if_neg (fun h => hCC0semi h.2)]
      rfl
    rw [standardize_url, hparse]
    simp only [Except.map]
    rw [rstripSlash_idem]
    rw [hU]
  · have hU : urlunparse ⟨scheme, netloc, rstripSlash path, params, query, fragment⟩ =
        urlunsplit scheme netloc (rstripSlash path ++ ';' :: params) query fragment := by
      simp only [urlunparse]
      rw [if_pos hpar]
    rw [hU]
    obtain ⟨t0, hR1, hR2, hRsemi, hRh, hRq, hunR⟩ : ∃ t0,
        (if (rstripSlash path ++ ';' :: params : PyStr) ≠ [] ∧
            (rstripSlash path ++ ';' :: params).take 1 ≠ ['/']
          then '/' :: (rstripSlash path ++ ';' :: params)
          else rstripSlash path ++ ';' :: params)
          = ('/' :: t0) ++ ';' :: params ∧
        rstripSlash ('/' :: t0) = rstripSlash path ∧
        ';' ∉ ('/' :: t0 : PyStr) ∧ '#' ∉ ('/' :: t0 : PyStr) ∧
        '?' ∉ ('/' :: t0 : PyStr) ∧ noUnsafeList ('/' :: t0) := by
      rcases hCC0shape with hc | ⟨ys, hc⟩
      · refine ⟨[], ?_, ?_, by decide, by decide, by decide, ?_⟩
        · rw [hc, List.nil_append,
            if_pos ⟨List.cons_ne_nil _ _, fun h2 => absurd (List.cons.inj h2).1 (by decide)⟩]
          rfl
        · rw [hc]
          rfl
        · intro c hc2
          rcases List.mem_cons.mp hc2 with rfl | hc2
          · exact ⟨by decide, by decide, by decide⟩
          · cases hc2
      · refine ⟨ys, ?_, ?_, hc ▸ hCC0semi, hc ▸ hCC0h, hc ▸ hCC0q, hc ▸ hunCC0⟩
        · rw [hc, if_neg ?hcond]
          case hcond =>
            intro h2
            exact h2.2 rfl
        · rw [← hc]
          exact rstripSlash_idem path
    have hshape := urlunsplit_shape scheme netloc (rstripSlash path ++ ';' :: params)
      query fragment hnet
    rw [hR1] at hshape
    have hDh : '#' ∉ (('/' :: t0) ++ ';' :: params : PyStr) := by
      intro hcm
      rcases List.mem_append.mp hcm with hcm | hcm
      · exact hRh hcm
      · rcases List.mem_cons.mp hcm with h2 | hcm
        · exact absurd h2 (by decide)
        · exact hparh hcm
    have hDq : '?' ∉ (('/' :: t0) ++ ';' :: params : PyStr) := by
      intro hcm
      rcases List.mem_append.mp hcm with hcm | hcm
      · exact hRq hcm
      · rcases List.mem_cons.mp hcm with h2 | hcm
        · exact absurd h2 (by decide)
        · exact hparq hcm
    have hunD : noUnsafeList (('/' :: t0) ++ ';' :: params) := by
      intro c hcm
      rcases List.mem_append.mp hcm with hcm | hcm
      · exact hunR c hcm
      · rcases List.mem_cons.mp hcm with rfl | hcm
        · exact ⟨by decide, by decide, by decide⟩
        · exact hunPar c hcm
    have hDshape : (('/' :: t0) ++ ';' :: params : PyStr) = [] ∨
        ∃ r, (('/' :: t0) ++ ';' :: params : PyStr) = '/' :: r :=
      Or.inr ⟨t0 ++ ';' :: params, rfl⟩
    have hsplit : urlsplitE (urlunsplit scheme netloc (rstripSlash path ++ ';' :: params)
        query fragment) =
        .ok ⟨scheme, netloc, ('/' :: t0) ++ ';' :: params, query, fragment⟩ := by
      rw [hshape]
      exact urlsplit_reparse scheme netloc (('/' :: t0) ++ ';' :: params) query fragment
        hsch hnet hnetD hbr hascii hDshape hDh hDq hqh hunN hunD hunQ hunF
    have hparse : urlparseE (urlunsplit scheme netloc (rstripSlash path ++ ';' :: params)
        query fragment) =
        .ok ⟨scheme, netloc, '/' :: t0, params, query, fragment⟩ := by
      rw [urlparseE, hsplit]
      simp only [bind, Except.bind]
      rw [if_pos ⟨husep hpar, List.mem_append_right _ (List.mem_cons_self _ _)⟩]
      rw [splitparamsPy_reattach t0 params hRsemi hpars]
      rfl
    rw [standardize_url, hparse]
    simp only [Except.map]
    rw [hR2]
    rw [hU]

/-- C8 counterexample: `standardize_url` is not idempotent.  The URL
`http://h/a/;b//` standardizes to `http://h/a/;b` (the trailing slashes sit
in the last path segment, so `_splitparams` finds no `;` there and the
params stay inside the path), but standardizing that output moves `;b` out
as params and yields the different string `http://h/a;b`. -/
theorem c8_counterexample :
    standardize_url "http://h/a/;b//".data = .ok "http://h/a/;b".data ∧
    standardize_url "http://h/a/;b".data = .ok "http://h/a;b".data ∧
    ("http://h/a/;b".data : PyStr) ≠ "http://h/a;b".data :=
  ⟨by decide, by decide, by decide⟩

/-- C8 (amended): for a URL that `urlparse` accepts with a nonempty netloc
and whose parsed path contains no `;`, `standardize_url` succeeds and its
output is a fixed point: standardizing the output returns it unchanged. -/
theorem c8_standardize_idempotent (u : PyStr) (p : ParseResult)
    (hp : urlparseE u = .ok p) (hnet : p.netloc ≠ []) (hsemi : ';' ∉ p.path) :
    ∃ s1, standardize_url u = .ok s1 ∧ standardize_url s1 = .ok s1 := by
  obtain ⟨s, hs, hpsch, hpnet, hpqE, hpfE, hcases⟩ := urlparseE_ok_view hp
  obtain ⟨wsch, wnetD, wbr, wascii, ⟨wph, wpq⟩, wqh, wps, wunS, wunN, wunP, wunQ, wunF⟩ :=
    urlsplit_wf hs
  have hsnet : s.netloc ≠ [] := by rw [← hpnet]; exact hnet
  have hsch : p.scheme = [] ∨ (':' ∉ p.scheme ∧
      (∃ c0 r0, p.scheme = c0 :: r0 ∧ c0.isAlpha = true) ∧
      p.scheme.all isSchemeChar = true ∧ p.scheme.map Char.toLower = p.scheme ∧
      ∀ c ∈ p.scheme, 32 < c.toNat) := by
    rw [hpsch]
    rcases wsch with h | ⟨pre, hpre, hni, halpha, hall⟩
    · exact Or.inl h
    · right
      rw [hpre]
      exact scheme_lower_wf halpha hall
  have hpp2 : (p.path = s.path ∧ p.params = []) ∨
      (s.path = p.path ++ ';' :: p.params ∧ '/' ∉ p.params ∧ s.scheme ∈ usesParams) := by
    rcases hcases with ⟨_, hpp, hpr⟩ | ⟨hg, hpp, hpr⟩
    · exact Or.inl ⟨hpp, hpr⟩
    · rcases splitparamsPy_spec s.path with hspec | ⟨hspec, hsl⟩
      · left
        constructor
        · rw [hpp, hspec]
        · rw [hpr, hspec]
      · right
        refine ⟨?_, ?_, hg.1⟩
        · rw [hpp, hpr]
          exact hspec
        · rw [hpr]
          exact hsl
  have hsub : ∀ c ∈ p.path, c ∈ s.path := by
    rcases hpp2 with ⟨hpp, _⟩ | ⟨hspec, _, _⟩
    · intro c hc
      rw [hpp] at hc
      exact hc
    · intro c hc
      rw [hspec]
      exact List.mem_append_left _ hc
  have hsubPar : ∀ c ∈ p.params, c ∈ s.path := by
    rcases hpp2 with ⟨_, hpr⟩ | ⟨hspec, _, _⟩
    · intro c hc
      rw [hpr] at hc
      cases hc
    · intro c hc
      rw [hspec]
      exact List.mem_append_right _ (List.mem_cons_of_mem _ hc)
  have husep : p.params ≠ [] → p.scheme ∈ usesParams := by
    rcases hpp2 with ⟨_, hpr⟩ | ⟨_, _, hg⟩
    · intro hne
      exact absurd hpr hne
    · intro _
      rw [hpsch]
      exact hg
  have hpars : '/' ∉ p.params := by
    rcases hpp2 with ⟨_, hpr⟩ | ⟨_, hsl, _⟩
    · rw [hpr]
      intro hc
      cases hc
    · exact hsl
  have hpathshape : p.path = [] ∨ ∃ t, p.path = '/' :: t := by
    have hsshape := wps hsnet
    rcases hpp2 with ⟨hpp, _⟩ | ⟨hspec, _, _⟩
    · rw [hpp]
      exact hsshape
    · rcases hsshape with hnil | ⟨r, hr⟩
      · exfalso
        rw [hnil] at hspec
        exact absurd hspec.symm (by simp)
      · right
        rw [hr] at hspec
        cases hpth : p.path with
        | nil =>
          exfalso
          rw [hpth, List.nil_append] at hspec
          exact absurd (List.cons.inj hspec).1 (by decide)
        | cons c t =>
          rw [hpth, List.cons_append] at hspec
          exact ⟨t, by rw [← (List.cons.inj hspec).1]⟩
  have hnetD : ∀ c ∈ p.netloc, isNetlocDelim c = false := by
    rw [hpnet]
    exact wnetD
  have hbr : '[' ∉ p.netloc ∧ ']' ∉ p.netloc := by
    rw [hpnet]
    exact wbr
  have hascii : p.netloc.all (fun c => c.toNat ≤ 127) = true := by
    rw [hpnet]
    rcases wascii with h | h
    · exact absurd h hsnet
    · exact h
  have hph : '#' ∉ p.path := fun hc => wph (hsub _ hc)
  have hpq2 : '?' ∉ p.path := fun hc => wpq (hsub _ hc)
  have hparh : '#' ∉ p.params := fun hc => wph (hsubPar _ hc)
  have hparq : '?' ∉ p.params := fun hc => wpq (hsubPar _ hc)
  have hqh : '#' ∉ p.query := by
    rw [hpqE]
    exact wqh
  have hunN : noUnsafeList p.netloc := by
    rw [hpnet]
    exact wunN
  have hunP : noUnsafeList p.path := fun c hc => wunP c (hsub c hc)
  have hunPar : noUnsafeList p.params := fun c hc => wunP c (hsubPar c hc)
  have hunQ : noUnsafeList p.query := by
    rw [hpqE]
    exact wunQ
  have hunF : noUnsafeList p.fragment := by
    rw [hpfE]
    exact wunF
  refine ⟨urlunparse ⟨p.scheme, p.netloc, rstripSlash p.path, p.params, p.query, p.fragment⟩,
    ?_, ?_⟩
  · rw [standardize_url, hp]
    rfl
  · exact standardize_fix p.scheme p.netloc p.path p.params p.query p.fragment hsch husep
      hnet hnetD hbr hascii hpathshape hsemi hph hpq2 hparh hparq hpars hqh hunN hunP
      hunPar hunQ hunF

/-- Concrete instance of the amended C8: `https://site.com/shop/` parses
with netloc `site.com` and semicolon-free path, and its standardization
`https://site.com/shop` is a fixed point of `standardize_url`. -/
theorem c8_standardize_idempotent_witness :
    urlparseE "https://site.com/shop/".data =
      .ok ⟨"https".data, "site.com".data, "/shop/".data, [], [], []⟩ ∧
    ("site.com".data : PyStr) ≠ [] ∧ ';' ∉ "/shop/".data ∧
    ∃ s1, standardize_url "https://site.com/shop/".data = .ok s1 ∧
      standardize_url s1 = .ok s1 :=
  ⟨by decide, by decide, by decide,
    c8_standardize_idempotent "https://site.com/shop/".data
      ⟨"https".data, "site.com".data, "/shop/".data, [], [], []⟩
      (by decide) (by decide) (by decide)⟩

end SOP
